import Mathlib

/-!
Verification of the `binfuse` sharded binary-fuse-filter container.

This file gives a shallow embedding of `binfuse::sharded_filter`
(the first, authoritative iteration of `sharded_filter.hpp`) together
with the relevant parts of its collaborator `binfuse::filter`
(`filter.hpp`), and proves or refutes the specification claims about it.

Modelling conventions:

* 64-bit machine integers (`std::uint64_t`, `std::size_t`) are `Nat`;
  arithmetic that can overflow in C++ carries an explicit `% 2^64`
  (`wordFit`).  The `uint32` cast in `extract_prefix` carries `% 2^32`.
* The backing file is a structure `SFile`: the 16 header bytes are a
  `List Nat` of byte values; the index region (`max_shards` host-endian
  `uint64` words at offsets `16 + 8*p`) is a `List Nat` of the word
  values; the body is an association list from byte offsets to the
  serialized filter stored at that offset.  Serialization of the filter
  primitive is opaque (out of scope per the spec, section 4.1): writing
  `serialize` output at offset `o` is modelled by appending `(o, filter)`
  and `deserialize` at `o` is association-list lookup.
* The filter primitive (spec section 4.1) is modelled by its contract:
  a filter carries its construction key multiset, its populated flag
  (false exactly for an empty construction set), and its serialized
  byte size.  Membership on a populated filter returns `true` on every
  construction key; behaviour on other keys is an arbitrary
  false-positive oracle `fp`, which all theorems quantify over.
* C++ exceptions are `Except` errors; because a `throw` aborts the
  member function but leaves already-mutated fields in place, errors
  from mutating operations carry the state as mutated up to the throw.
-/

namespace Binfuse

/-- 2^64, the modulus of `std::size_t` / `std::uint64_t` arithmetic. -/
def word : Nat := 2 ^ 64

/-- Wrap-around of 64-bit unsigned arithmetic. -/
def wordFit (n : Nat) : Nat := n % word

/-- `empty_offset = static_cast<offset_t>(-1)`: the EMPTY index sentinel. -/
def empty_offset : Nat := 2 ^ 64 - 1

/-- `header_length = 16`. -/
def header_length : Nat := 16

/-- `index_start = header_start + header_length = 16`. -/
def index_start : Nat := 16

/-- `max_shards() = 1U << shard_bits_`. -/
def max_shards (shardBits : Nat) : Nat := 2 ^ shardBits

/-- `header_length + index_length()`: byte size of header plus index. -/
def base_length (shardBits : Nat) : Nat := 16 + 8 * max_shards shardBits

/-- Decimal digits, most significant first; structural recursion on a
fuel argument (one unit per digit, so any `fuel ≥ n` is enough). -/
def decDigitsAux : Nat → Nat → List Nat
  | 0, n => [n]
  | fuel + 1, n => if n < 10 then [n] else decDigitsAux fuel (n / 10) ++ [n % 10]

/-- Decimal digits of `n`, most significant first (`[0]` for zero). -/
def decDigits (n : Nat) : List Nat := decDigitsAux n n

/-- ASCII decimal rendering of `n`, zero-filled to minimum width `w`
(the semantics of `std::setw(w)` with `std::setfill('0')`). -/
def padDec (w n : Nat) : List Nat :=
  (List.replicate (w - (decDigits n).length) 0 ++ decDigits n).map (fun d => d + 48)

/-- The ASCII bytes of the literal tag `sbinfuse`. -/
def sbinfuseTag : List Nat := [115, 98, 105, 110, 102, 117, 115, 101]

/-- `type_id()`: `"sbinfuse"` followed by the fingerprint width in bits,
zero-filled to two digits.  `width` is 8 for `binary_fuse8_t` and 16 for
`binary_fuse16_t`. -/
def type_id (width : Nat) : List Nat := sbinfuseTag ++ padDec 2 width

/-- `create_filetag()`: the bytes `type_id() ++ '-' ++ setw(4) max_shards`
written at offset 0 of the freshly zero-filled header. -/
def filetag (shardBits width : Nat) : List Nat :=
  type_id width ++ [45] ++ padDec 4 (max_shards shardBits)

/-- The 16 header bytes of a freshly created sink file: the filetag, with
the remaining bytes still zero from `resize_file` zero-extension. -/
def mkHeader (shardBits width : Nat) : List Nat :=
  filetag shardBits width ++ List.replicate (header_length - (filetag shardBits width).length) 0

/-- The header layout as the specification words it (section 4.2 and
claim C6): the ASCII tag `sbinfuse`, the fingerprint width as two
zero-padded decimal digits, a `-`, `max_shards` as four zero-padded
decimal digits, and a terminating NUL.  Stated from the spec for
comparison against `mkHeader`, which is transcribed from the source. -/
def specHeader (shardBits width : Nat) : List Nat :=
  sbinfuseTag ++ padDec 2 width ++ [45] ++ padDec 4 (max_shards shardBits) ++ [0]

/-- `std::from_chars` over a fixed byte range: consume the maximal digit
run from the front, fold it into `acc`; a leading non-digit leaves the
(zero-initialized) output unchanged. -/
def parseDecAcc : List Nat → Nat → Nat
  | [], acc => acc
  | c :: cs, acc => if 48 ≤ c ∧ c ≤ 57 then parseDecAcc cs (acc * 10 + (c - 48)) else acc

/-- `check_max_shards` parsing: `from_chars(&mmap[11], &mmap[15], v)`
reads the four bytes at offsets 11..14. -/
def parseShardField (header : List Nat) : Nat :=
  parseDecAcc ((header.drop 11).take 4) 0

/-- `check_type_id()`: the first `type_id().size()` bytes of the map must
equal `type_id()` (returns `true` when no exception is thrown). -/
def check_type_id (width : Nat) (header : List Nat) : Bool :=
  header.take (type_id width).length == type_id width

/-- `check_max_shards()`: the parsed 4-digit shard field must equal
`max_shards()` (returns `true` when no exception is thrown). -/
def check_max_shards (shardBits : Nat) (header : List Nat) : Bool :=
  parseShardField header == max_shards shardBits

/-- The filter primitive (`binfuse::filter`), modelled by the collaborator
contract of spec section 4.1: `keys` is the construction key sequence,
`populated` mirrors `is_populated()` (`SegmentCount > 0`, false exactly
for an empty construction set), and `sbytes` is `serialization_bytes()`. -/
structure Filter where
  keys : List Nat
  populated : Bool
  sbytes : Nat
deriving DecidableEq

/-- A default-constructed `binfuse::filter`: zeroed struct, unpopulated. -/
def defaultFilter : Filter := ⟨[], false, 0⟩

instance : Inhabited Filter := ⟨defaultFilter⟩

/-- `filter(keys)`: construct from a key sequence; an empty key set
yields an unpopulated filter.  `sz` abstracts the serialized byte size
the C library reports for a filter built from these keys. -/
def Filter.ofKeys (sz : List Nat → Nat) (ks : List Nat) : Filter :=
  ⟨ks, !ks.isEmpty, sz ks⟩

/-- Membership on a populated filter: `true` for every construction key;
on other keys the false-positive oracle `fp` decides (spec section 4.1). -/
def Filter.mem (fp : List Nat → Nat → Bool) (f : Filter) (k : Nat) : Bool :=
  f.keys.contains k || fp f.keys k

/-- `extract_prefix(key)`: `static_cast<uint32_t>(key >> (64 - shard_bits))`. -/
def extractPfx (shardBits k : Nat) : Nat :=
  (k >>> (64 - shardBits)) % 2 ^ 32

/-- The backing file.  `header` is the 16 header bytes; `index` the
`max_shards` 64-bit words of the index region; `body` maps each byte
offset at which a filter was serialized to that filter; `size` the file
size in bytes (`resize_file` zero-extends). -/
structure SFile where
  header : List Nat
  index : List Nat
  body : List (Nat × Filter)
  size : Nat
deriving DecidableEq

/-- `load_filters()`: one filter per slot; empty slots keep the
default-constructed filter, non-empty slots deserialize from the mapped
offset. -/
def load_filters (f : SFile) : List Filter :=
  f.index.map (fun off =>
    if off = empty_offset then defaultFilter else (f.body.lookup off).getD defaultFilter)

/-- `count_if(index, != empty_offset)`: the shard count maintained by
`load_index`. -/
def countNonEmpty (idx : List Nat) : Nat :=
  idx.countP (fun a => a != empty_offset)

/-- Abstract view of a file: the filter stored at slot `q`, if any. -/
def slotFun (f : SFile) (q : Nat) : Option Filter :=
  let off := f.index.getD q 0
  if off = empty_offset then none else f.body.lookup off

/-- Total serialized size of the body entries. -/
def sumSb (body : List (Nat × Filter)) : Nat :=
  (body.map (fun e => e.2.sbytes)).sum

/-- Error kinds surfaced by the container (spec section 7). -/
inductive SfErr where
  | fileNotFound
  | formatMismatch
  | corruptFile
  | slotOccupied
  | capacityExceeded
  | keyOutOfOrder
deriving DecidableEq

/-- The `sharded_filter` object in sink (write) mode: its in-memory
fields plus the backing file (`none` if the file does not exist yet). -/
structure Sink where
  shardBits : Nat
  width : Nat
  file : Option SFile
  index : List Nat
  filters : List Filter
  shards : Nat
  streamKeys : List Nat
  streamLastPfx : Nat
  streamLastKey : Nat
deriving DecidableEq

/-- In-memory state loaded from a validated file: `load_index` plus
`load_filters` (the tail of `load()` / of `ensure_header()`). -/
def sinkFromFile (shardBits width : Nat) (f : SFile) : Sink :=
  ⟨shardBits, width, some f, f.index, load_filters f, countNonEmpty f.index, [], 0, 0⟩

/-- The file produced by the create branch of `ensure_header`: resize to
`header_length + index_length()`, write the filetag, fill the index with
`empty_offset`. -/
def freshFile (shardBits width : Nat) : SFile :=
  ⟨mkHeader shardBits width, List.replicate (max_shards shardBits) empty_offset, [],
    base_length shardBits⟩

/-- A sink opened on a path with no existing file. -/
def freshSink (shardBits width : Nat) : Sink :=
  sinkFromFile shardBits width (freshFile shardBits width)

/-- A concrete two-slot store (`shard_bits = 1`, 8-bit fingerprints)
holding one serialized filter at slot 0 (offset 32), slot 1 still empty. -/
def occFile : SFile :=
  ⟨mkHeader 1 8, [32, empty_offset], [(32, ⟨[5], true, 4⟩)], 36⟩

/-- A concrete two-slot store with both slots occupied (at capacity). -/
def occFullFile : SFile :=
  ⟨mkHeader 1 8, [32, 36], [(32, ⟨[3], true, 4⟩), (36, ⟨[2 ^ 63], true, 4⟩)], 40⟩

/-- `ensure_header()` acting on the file: create header+index when the
file is missing or zero-sized, reject a short non-empty file as corrupt,
otherwise validate the existing header.  Returns the current file size
(the `new_size` the caller uses as the append offset) and the file. -/
def ensure_header_file (shardBits width : Nat) (disk : Option SFile) :
    Except SfErr (Nat × SFile) :=
  match disk with
  | none => .ok (base_length shardBits, freshFile shardBits width)
  | some f =>
    if f.size < base_length shardBits then
      if f.size = 0 then .ok (base_length shardBits, freshFile shardBits width)
      else .error .corruptFile
    else
      if check_type_id width f.header then
        if check_max_shards shardBits f.header then .ok (f.size, f)
        else .error .formatMismatch
      else .error .formatMismatch

/-- `ensure_header()` on the sink object: on success the in-memory index,
filters and shard count are (re)loaded from the mapped file; on failure
the throw happens before any in-memory mutation. -/
def ensure_header (s : Sink) : Except (SfErr × Sink) (Nat × SFile × Sink) :=
  match ensure_header_file s.shardBits s.width s.file with
  | .error e => .error (e, s)
  | .ok (ns, f) =>
    .ok (ns, f,
      { s with file := some f, index := f.index, filters := load_filters f,
               shards := countNonEmpty f.index })

/-- `add(new_filter, prefix)` (lines 101-133 of the source): capacity
check; `ensure_header`; compute the append offset and grow the file;
re-read the index slot from the map; fail `SlotOccupied` if non-empty;
otherwise write the offset into the map index slot, serialize the filter
body at the offset, update the in-memory index and shard count, and
reload all filters from the remapped file.  The behaviour for
`pfx ≥ max_shards` is undefined in the source (unchecked `memcpy`);
the model is only ever used with `pfx < max_shards`. -/
def add (s : Sink) (nf : Filter) (pfx : Nat) : Except (SfErr × Sink) Sink :=
  if s.shards = max_shards s.shardBits then .error (.capacityExceeded, s)
  else
    match ensure_header s with
    | .error es => .error es
    | .ok (ns, f, s1) =>
      let off := ns
      let ns2 := wordFit (ns + nf.sbytes)
      let f2 : SFile := { f with size := ns2 }
      let s2 : Sink := { s1 with file := some f2 }
      if f2.index.getD pfx 0 ≠ empty_offset then .error (.slotOccupied, s2)
      else
        let f3 : SFile :=
          { f2 with index := f2.index.set pfx off, body := f2.body ++ [(off, nf)] }
        .ok { s2 with file := some f3, index := s2.index.set pfx off,
                      shards := s2.shards + 1, filters := load_filters f3 }

/-- `stream_prepare()`. -/
def stream_prepare (s : Sink) : Sink :=
  { s with streamKeys := [], streamLastPfx := 0, streamLastKey := 0 }

/-- `stream_add(key)`: reject strictly decreasing keys first (before any
mutation); record the key; on a prefix rollover build a filter from the
buffered keys and `add` it at the previous prefix; append the key to the
buffer.  `sz` is the serialized-size function of the filter primitive. -/
def stream_add (sz : List Nat → Nat) (s : Sink) (k : Nat) : Except (SfErr × Sink) Sink :=
  if k < s.streamLastKey then .error (.keyOutOfOrder, s)
  else
    if extractPfx s.shardBits k ≠ s.streamLastPfx then
      match add { s with streamLastKey := k } (Filter.ofKeys sz s.streamKeys)
          s.streamLastPfx with
      | .error es => .error es
      | .ok s2 =>
        .ok { s2 with streamKeys := [k], streamLastPfx := extractPfx s.shardBits k }
    else
      .ok { s with streamLastKey := k, streamKeys := s.streamKeys ++ [k] }

/-- `stream_finalize()`: flush the trailing shard if the buffer is
non-empty (the buffer itself is not cleared by the source). -/
def stream_finalize (sz : List Nat → Nat) (s : Sink) : Except (SfErr × Sink) Sink :=
  if s.streamKeys.isEmpty then .ok s
  else add s (Filter.ofKeys sz s.streamKeys) s.streamLastPfx

/-- Sink-mode `load()` (the constructor): create header and index when
the file is missing, otherwise map and validate the existing file and
load index and filters. -/
def sinkOpen (shardBits width : Nat) (disk : Option SFile) : Except SfErr Sink :=
  match disk with
  | none =>
    match ensure_header_file shardBits width none with
    | .error e => .error e
    | .ok (_, f) => .ok (sinkFromFile shardBits width f)
  | some f =>
    if check_type_id width f.header then
      if check_max_shards shardBits f.header then .ok (sinkFromFile shardBits width f)
      else .error .formatMismatch
    else .error .formatMismatch

/-- A source (read-mode) handle: validated header, loaded index and
deserialized filters. -/
structure Source where
  shardBits : Nat
  index : List Nat
  filters : List Filter
  shards : Nat
deriving DecidableEq

/-- Source-mode `load()`: mapping a missing file fails; then
`check_type_id`, `check_max_shards`, `load_index`, `load_filters`. -/
def sourceOpen (shardBits width : Nat) (disk : Option SFile) : Except SfErr Source :=
  match disk with
  | none => .error .fileNotFound
  | some f =>
    if check_type_id width f.header then
      if check_max_shards shardBits f.header then
        .ok ⟨shardBits, f.index, load_filters f, countNonEmpty f.index⟩
      else .error .formatMismatch
    else .error .formatMismatch

/-- `contains(needle)` (lines 52-62): route to the slot's filter; an
unpopulated filter short-circuits to `false`; otherwise query the filter
primitive.  Shared by sink and source handles, which both hold a
`filters` table. -/
def containsVia (fp : List Nat → Nat → Bool) (shardBits : Nat) (filters : List Filter)
    (k : Nat) : Bool :=
  let pfx := extractPfx shardBits k
  let fl := filters.getD pfx defaultFilter
  if !fl.populated then false else fl.mem fp k

/-- `contains` on a source handle. -/
def Source.contains (fp : List Nat → Nat → Bool) (src : Source) (k : Nat) : Bool :=
  containsVia fp src.shardBits src.filters k

/-- `contains` on a sink handle. -/
def Sink.contains (fp : List Nat → Nat → Bool) (s : Sink) (k : Nat) : Bool :=
  containsVia fp s.shardBits s.filters k

/-- The externally observable side effects of one `add` call, in program
order.  `headerPhase` stands for the whole `ensure_header()` call;
`writeIndexSlot` is the `copy_to_map` of the new offset into the mapped
index slot (line 125); `serializeBody` is `new_filter.serialize` into
the mapped body region (line 126); `memIndexSet` is the in-memory
`index[prefix] = new_filter_offset` (line 127). -/
inductive AddEvent where
  | headerPhase
  | syncStart
  | resizeFile (newSize : Nat)
  | writeIndexSlot (pfx off : Nat)
  | serializeBody (off : Nat)
  | memIndexSet (pfx off : Nat)
  | syncEnd
deriving DecidableEq

/-- The event trace of `add(new_filter, prefix)`: a transcription of the
side-effect order of lines 104-132 of the source, with the same guards
as `add` (a throw truncates the trace). -/
def addTrace (s : Sink) (nf : Filter) (pfx : Nat) : List AddEvent :=
  if s.shards = max_shards s.shardBits then []
  else
    match ensure_header s with
    | .error _ => [.headerPhase]
    | .ok (ns, f, _) =>
      let off := ns
      let ns2 := wordFit (ns + nf.sbytes)
      let f2 : SFile := { f with size := ns2 }
      if f2.index.getD pfx 0 ≠ empty_offset then
        [.headerPhase, .syncStart, .resizeFile ns2]
      else
        [.headerPhase, .syncStart, .resizeFile ns2, .writeIndexSlot pfx off,
         .serializeBody off, .memIndexSet pfx off, .syncEnd]

/-- Position of the mapped-index-slot write in a trace. -/
def idxWritePos (tr : List AddEvent) : Nat :=
  tr.findIdx (fun e => match e with | .writeIndexSlot _ _ => true | _ => false)

/-- Position of the body serialization in a trace. -/
def serializePos (tr : List AddEvent) : Nat :=
  tr.findIdx (fun e => match e with | .serializeBody _ => true | _ => false)

/-- A sequence of `add` calls on a sink. -/
def buildAdds (s : Sink) (l : List (Filter × Nat)) : Except (SfErr × Sink) Sink :=
  l.foldlM (fun st e => add st e.1 e.2) s

/-- A sequence of `stream_add` calls on a sink. -/
def streamFold (sz : List Nat → Nat) (s : Sink) (ks : List Nat) :
    Except (SfErr × Sink) Sink :=
  ks.foldlM (stream_add sz) s

/-- The whole streaming protocol on a freshly opened sink:
`stream_prepare`, `stream_add` for each key in order, `stream_finalize`. -/
def streamRun (shardBits width : Nat) (sz : List Nat → Nat) (ks : List Nat) :
    Except (SfErr × Sink) Sink :=
  match streamFold sz (stream_prepare (freshSink shardBits width)) ks with
  | .error es => .error es
  | .ok s => stream_finalize sz s

/-- The shard selectors of a key list. -/
def pfxList (shardBits : Nat) (ks : List Nat) : List Nat :=
  ks.map (extractPfx shardBits)

/-- The keys of `ks` routed to slot `q`. -/
def blockOf (shardBits q : Nat) (ks : List Nat) : List Nat :=
  ks.filter (fun k => extractPfx shardBits k == q)

/-- The canonical per-slot shards of a key list: one filter per distinct
shard selector, built from the keys routed to it. -/
def shardsOf (shardBits : Nat) (sz : List Nat → Nat) (ks : List Nat) :
    List (Filter × Nat) :=
  (pfxList shardBits ks).dedup.map
    (fun q => (Filter.ofKeys sz (blockOf shardBits q ks), q))

/-- Slot assignment after a sequence of adds, as a function update fold. -/
def assignList (base : Nat → Option Filter) (l : List (Filter × Nat)) :
    Nat → Option Filter :=
  l.foldl (fun a e => Function.update a e.2 (some e.1)) base

/-- Slot assignment mid-stream: after the keys `done` have been accepted
and `lp` is the current `stream_last_prefix_`, the slots holding a
serialized filter are the completed shard selectors of `done` other than
`lp`, plus slot 0 holding a filter built from no keys when the first
accepted key had a non-zero selector. -/
def assignDur (shardBits : Nat) (sz : List Nat → Nat) (done : List Nat) (lp q : Nat) :
    Option Filter :=
  if q ∈ pfxList shardBits done ∧ q ≠ lp then
    some (Filter.ofKeys sz (blockOf shardBits q done))
  else if q = 0 ∧ done ≠ [] ∧ 0 ∉ pfxList shardBits done then
    some (Filter.ofKeys sz [])
  else none

/-- Slot assignment after a completed streaming build over `ks`. -/
def assignFinal (shardBits : Nat) (sz : List Nat → Nat) (ks : List Nat) (q : Nat) :
    Option Filter :=
  if q ∈ pfxList shardBits ks then
    some (Filter.ofKeys sz (blockOf shardBits q ks))
  else if q = 0 ∧ ks ≠ [] ∧ 0 ∉ pfxList shardBits ks then
    some (Filter.ofKeys sz [])
  else none

/-- Well-formedness of a backing file for parameters `(b, w)`: the
header is the freshly created one, the index has `max_shards` entries,
every non-empty index entry points at a body entry, body offsets are
inside the body region and below the file size, serialized sizes are
positive and bounded, bodies and populated slots are in bijection, and
the file size is exactly header+index plus the body bytes. -/
def FileWF (b w : Nat) (f : SFile) : Prop :=
  f.header = mkHeader b w ∧
  f.index.length = max_shards b ∧
  (∀ q, q < max_shards b → f.index.getD q 0 ≠ empty_offset →
    (f.body.lookup (f.index.getD q 0)).isSome) ∧
  (∀ e ∈ f.body, base_length b ≤ e.1 ∧ e.1 < f.size) ∧
  (∀ e ∈ f.body, 0 < e.2.sbytes ∧ e.2.sbytes ≤ 2 ^ 32) ∧
  f.body.length = countNonEmpty f.index ∧
  f.size = base_length b + sumSb f.body

/-- Well-formedness of a sink handle over file `f`: the in-memory index,
filters and shard count agree with the mapped file. -/
def SinkWF (b w : Nat) (s : Sink) (f : SFile) : Prop :=
  s.shardBits = b ∧ s.width = w ∧ s.file = some f ∧ FileWF b w f ∧
  s.index = f.index ∧ s.filters = load_filters f ∧ s.shards = countNonEmpty f.index

/-- A bound on the serialized-size function of the filter primitive:
sizes are positive (a serialized filter contains at least its struct
header) and bounded by 2^32 (the construction API takes a `uint32`
count). -/
def SzOk (sz : List Nat → Nat) : Prop :=
  ∀ ks, 0 < sz ks ∧ sz ks ≤ 2 ^ 32

/-- Invariant of the streaming build after the keys `done` have been
accepted: the sink is well-formed over its file, the buffer holds
exactly the keys of the in-progress block, `stream_last_key` and
`stream_last_prefix` track the last accepted key, the shard count is
bounded by the current selector, and the file holds exactly the
mid-stream slot assignment. -/
def StreamInv (b w : Nat) (sz : List Nat → Nat) (done : List Nat) (s : Sink)
    (f : SFile) : Prop :=
  SinkWF b w s f ∧
  s.streamKeys = blockOf b s.streamLastPfx done ∧
  s.streamLastKey = (done.getLast?).getD 0 ∧
  (done = [] → s.streamLastPfx = 0 ∧ s.shards = 0) ∧
  (done ≠ [] → s.streamLastPfx = extractPfx b ((done.getLast?).getD 0) ∧
    s.shards ≤ s.streamLastPfx) ∧
  (∀ q, slotFun f q = assignDur b sz done s.streamLastPfx q)

theorem extractPfx_eq_shift (b k : Nat) (hb : b ≤ 32) (hk : k < 2 ^ 64) :
    extractPfx b k = k >>> (64 - b) := by
  have hlt : k >>> (64 - b) < 2 ^ b := by
    rw [Nat.shiftRight_eq_div_pow]
    have hpos : 0 < 2 ^ (64 - b) := Nat.pos_pow_of_pos _ (by omega)
    rw [Nat.div_lt_iff_lt_mul hpos, ← Nat.pow_add]
    have : b + (64 - b) = 64 := by omega
    rw [this]; exact hk
  have h32 : k >>> (64 - b) < 2 ^ 32 :=
    lt_of_lt_of_le hlt (Nat.pow_le_pow_right (by omega) hb)
  unfold extractPfx
  exact Nat.mod_eq_of_lt h32

theorem extractPfx_lt (b k : Nat) (hb : b ≤ 32) (hk : k < 2 ^ 64) :
    extractPfx b k < max_shards b := by
  rw [extractPfx_eq_shift b k hb hk, Nat.shiftRight_eq_div_pow]
  have hpos : 0 < 2 ^ (64 - b) := Nat.pos_pow_of_pos _ (by omega)
  rw [max_shards, Nat.div_lt_iff_lt_mul hpos, ← Nat.pow_add]
  have : b + (64 - b) = 64 := by omega
  rw [this]; exact hk

theorem extractPfx_mono (b k k' : Nat) (hb : b ≤ 32) (hk : k < 2 ^ 64)
    (hk' : k' < 2 ^ 64) (hle : k ≤ k') : extractPfx b k ≤ extractPfx b k' := by
  rw [extractPfx_eq_shift b k hb hk, extractPfx_eq_shift b k' hb hk',
    Nat.shiftRight_eq_div_pow, Nat.shiftRight_eq_div_pow]
  exact Nat.div_le_div_right hle

theorem check_type_id_mkHeader (b w : Nat) (hb : b ≤ 16) (hw : w = 8 ∨ w = 16) :
    check_type_id w (mkHeader b w) = true := by
  rcases hw with hw | hw <;> subst hw <;> interval_cases b <;> decide

theorem check_type_id_mkHeader_iff (w b0 w0 : Nat) (hb0 : b0 ≤ 16)
    (hw : w = 8 ∨ w = 16) (hw0 : w0 = 8 ∨ w0 = 16) :
    check_type_id w (mkHeader b0 w0) = true ↔ w = w0 := by
  rcases hw with hw | hw <;> rcases hw0 with hw0 | hw0 <;> subst hw <;> subst hw0 <;>
    interval_cases b0 <;> decide

theorem parseShardField_mkHeader (b0 w0 : Nat) (hb0 : b0 ≤ 13) (hw0 : w0 = 8 ∨ w0 = 16) :
    parseShardField (mkHeader b0 w0) = max_shards b0 := by
  rcases hw0 with hw0 | hw0 <;> subst hw0 <;> interval_cases b0 <;> decide

theorem check_max_shards_mkHeader (b w : Nat) (hb : b ≤ 13) (hw : w = 8 ∨ w = 16) :
    check_max_shards b (mkHeader b w) = true := by
  rw [check_max_shards, parseShardField_mkHeader b w hb hw]
  simp

theorem check_max_shards_mkHeader_iff (b b0 w0 : Nat) (hb0 : b0 ≤ 13)
    (hw0 : w0 = 8 ∨ w0 = 16) :
    check_max_shards b (mkHeader b0 w0) = true ↔ b = b0 := by
  rw [check_max_shards, parseShardField_mkHeader b0 w0 hb0 hw0]
  simp only [beq_iff_eq, max_shards]
  constructor
  · intro h
    exact (Nat.pow_right_injective (by norm_num) h).symm
  · intro h; rw [h]

theorem lookup_append_cases (l l2 : List (Nat × Filter)) (a : Nat) :
    (l ++ l2).lookup a =
      match l.lookup a with | some v => some v | none => l2.lookup a := by
  induction l with
  | nil => rfl
  | cons e t ih =>
    obtain ⟨k, v⟩ := e
    by_cases h : a = k
    · subst h
      simp only [List.cons_append, List.lookup, beq_self_eq_true]
    · have hb : (a == k) = false := by simp [h]
      simp only [List.cons_append, List.lookup, hb]
      exact ih

theorem lookup_mem {l : List (Nat × Filter)} {a : Nat} {v : Filter}
    (h : l.lookup a = some v) : (a, v) ∈ l := by
  induction l with
  | nil => simp [List.lookup] at h
  | cons e t ih =>
    obtain ⟨k, v'⟩ := e
    by_cases hk : a = k
    · subst hk
      simp only [List.lookup, beq_self_eq_true, Option.some.injEq] at h
      simp [h]
    · have hb : (a == k) = false := by simp [hk]
      simp only [List.lookup, hb] at h
      exact List.mem_cons_of_mem _ (ih h)

theorem lookup_eq_none_of_ne {l : List (Nat × Filter)} {a : Nat}
    (h : ∀ e ∈ l, e.1 ≠ a) : l.lookup a = none := by
  induction l with
  | nil => rfl
  | cons e t ih =>
    obtain ⟨k, v⟩ := e
    have hk : k ≠ a := h (k, v) (List.mem_cons_self _ _)
    have hb : (a == k) = false := by simp [Ne.symm hk]
    simp only [List.lookup, hb]
    exact ih (fun e he => h e (List.mem_cons_of_mem _ he))

theorem lookup_snoc_self {l : List (Nat × Filter)} {a : Nat} {v : Filter}
    (h : ∀ e ∈ l, e.1 ≠ a) : (l ++ [(a, v)]).lookup a = some v := by
  rw [lookup_append_cases, lookup_eq_none_of_ne h]
  simp [List.lookup]

theorem lookup_snoc_ne {l : List (Nat × Filter)} {a a' : Nat} {v : Filter}
    (h : a' ≠ a) : (l ++ [(a, v)]).lookup a' = l.lookup a' := by
  rw [lookup_append_cases]
  have : (a' == a) = false := by simp [h]
  cases hl : l.lookup a' <;> simp [List.lookup, this]

theorem countNonEmpty_replicate (n : Nat) :
    countNonEmpty (List.replicate n empty_offset) = 0 := by
  rw [countNonEmpty, List.countP_eq_zero]
  intro a ha
  rw [List.eq_of_mem_replicate ha]
  simp

theorem getD_set_self {idx : List Nat} {pfx off : Nat} (h : pfx < idx.length) :
    (idx.set pfx off).getD pfx 0 = off := by
  rw [List.getD_eq_getElem?_getD, List.getElem?_set_self (by omega)]
  rfl

theorem getD_set_ne {idx : List Nat} {pfx off q : Nat} (h : q ≠ pfx) :
    (idx.set pfx off).getD q 0 = idx.getD q 0 := by
  rw [List.getD_eq_getElem?_getD, List.getElem?_set_ne (Ne.symm h),
    ← List.getD_eq_getElem?_getD]

theorem countNonEmpty_set {idx : List Nat} {pfx off : Nat} (h1 : pfx < idx.length)
    (h2 : idx.getD pfx 0 = empty_offset) (h3 : off ≠ empty_offset) :
    countNonEmpty (idx.set pfx off) = countNonEmpty idx + 1 := by
  induction idx generalizing pfx with
  | nil => simp at h1
  | cons a t ih =>
    cases pfx with
    | zero =>
      have ha : a = empty_offset := h2
      subst ha
      simp [countNonEmpty, List.countP_cons, h3]
    | succ n =>
      have h1' : n < t.length := by simpa using h1
      have h2' : t.getD n 0 = empty_offset := by simpa [List.getD_cons_succ] using h2
      have := ih h1' h2'
      simp only [List.set_cons_succ, countNonEmpty, List.countP_cons] at *
      omega

theorem sumSb_append (l l2 : List (Nat × Filter)) :
    sumSb (l ++ l2) = sumSb l + sumSb l2 := by
  simp [sumSb]

theorem sumSb_le (l : List (Nat × Filter)) (c : Nat) (h : ∀ e ∈ l, e.2.sbytes ≤ c) :
    sumSb l ≤ l.length * c := by
  induction l with
  | nil => simp [sumSb]
  | cons e t ih =>
    have he := h e (List.mem_cons_self _ _)
    have ht := ih (fun e' he' => h e' (List.mem_cons_of_mem _ he'))
    simp only [sumSb, List.map_cons, List.sum_cons, List.length_cons] at *
    calc e.2.sbytes + (t.map (fun e => e.2.sbytes)).sum ≤ c + t.length * c := by omega
    _ = (t.length + 1) * c := by ring

/-- The body of a well-formed file is bounded by the shard count, so the
file size never approaches 2^64: `size_t` arithmetic in `add` does not
wrap. -/
theorem size_bound {b w : Nat} {f : SFile} (hf : FileWF b w f) (hb : b ≤ 16) :
    f.size < 2 ^ 49 := by
  obtain ⟨-, hlen, -, -, hsz, hblen, hsize⟩ := hf
  have hcnt : countNonEmpty f.index ≤ max_shards b := by
    calc countNonEmpty f.index ≤ f.index.length := List.countP_le_length _
    _ = max_shards b := hlen
  have hsum : sumSb f.body ≤ f.body.length * 2 ^ 32 :=
    sumSb_le _ _ (fun e he => (hsz e he).2)
  have hm : max_shards b ≤ 2 ^ 16 := Nat.pow_le_pow_right (by omega) hb
  have hb' : f.body.length ≤ 2 ^ 16 := by omega
  have hsum2 : sumSb f.body ≤ 2 ^ 16 * 2 ^ 32 := by
    calc sumSb f.body ≤ f.body.length * 2 ^ 32 := hsum
    _ ≤ 2 ^ 16 * 2 ^ 32 := Nat.mul_le_mul_right _ hb'
  have hbase : base_length b ≤ 16 + 8 * 2 ^ 16 :=
    Nat.add_le_add_left (Nat.mul_le_mul_left 8 hm) 16
  calc f.size = base_length b + sumSb f.body := hsize
  _ ≤ 16 + 8 * 2 ^ 16 + 2 ^ 16 * 2 ^ 32 := Nat.add_le_add hbase hsum2
  _ < 2 ^ 49 := by norm_num

theorem load_filters_length (f : SFile) : (load_filters f).length = f.index.length := by
  simp [load_filters]

theorem load_filters_getD {b w : Nat} {f : SFile} (hf : FileWF b w f) (q : Nat) :
    (load_filters f).getD q defaultFilter = (slotFun f q).getD defaultFilter := by
  by_cases hq : q < f.index.length
  · have hsome : f.index[q]? = some f.index[q] := List.getElem?_eq_getElem hq
    have hgetD : f.index.getD q 0 = f.index[q] := by
      rw [List.getD_eq_getElem?_getD, hsome]; rfl
    have hL : (load_filters f).getD q defaultFilter =
        (if f.index[q] = empty_offset then defaultFilter
         else (f.body.lookup f.index[q]).getD defaultFilter) := by
      rw [List.getD_eq_getElem?_getD, load_filters, List.getElem?_map, hsome]; rfl
    rw [hL]
    simp only [slotFun]
    rw [hgetD]
    split <;> simp
  · have hnone : f.index[q]? = none := List.getElem?_eq_none (by omega)
    have hgetD : f.index.getD q 0 = 0 := by
      rw [List.getD_eq_getElem?_getD, hnone]; rfl
    have hL : (load_filters f).getD q defaultFilter = defaultFilter := by
      rw [List.getD_eq_getElem?_getD, load_filters, List.getElem?_map, hnone]; rfl
    have h0 : (0 : Nat) ≠ empty_offset := by norm_num [empty_offset]
    have hlk : f.body.lookup 0 = none := by
      apply lookup_eq_none_of_ne
      intro e he
      have := (hf.2.2.2.1 e he).1
      have hbase : 16 ≤ base_length b := by unfold base_length; omega
      omega
    rw [hL]
    simp only [slotFun]
    rw [hgetD, if_neg h0, hlk]
    rfl

theorem slotFun_none_iff {b w : Nat} {f : SFile} (hf : FileWF b w f) {q : Nat}
    (hq : q < max_shards b) :
    slotFun f q = none ↔ f.index.getD q 0 = empty_offset := by
  constructor
  · intro h
    by_contra hne
    have := hf.2.2.1 q hq hne
    rw [slotFun] at h
    simp only [hne, if_false] at h
    rw [h] at this
    simp at this
  · intro h
    simp only [slotFun, h, if_pos]

theorem sink_eta {s : Sink} {f : SFile} (hfile : s.file = some f)
    (hidx : s.index = f.index) (hfilt : s.filters = load_filters f)
    (hsh : s.shards = countNonEmpty f.index) :
    ({ s with file := some f, index := f.index, filters := load_filters f,
              shards := countNonEmpty f.index } : Sink) = s := by
  cases s
  simp_all

theorem ensure_header_file_ok {b w : Nat} {f : SFile} (hf : FileWF b w f)
    (hb : b ≤ 13) (hw : w = 8 ∨ w = 16) :
    ensure_header_file b w (some f) = .ok (f.size, f) := by
  have hsize : base_length b ≤ f.size := by
    have := hf.2.2.2.2.2.2
    omega
  have ht : check_type_id w f.header = true := by
    rw [hf.1]; exact check_type_id_mkHeader b w (by omega) hw
  have hm : check_max_shards b f.header = true := by
    rw [hf.1]; exact check_max_shards_mkHeader b w hb hw
  have hns : ¬f.size < base_length b := by omega
  unfold ensure_header_file
  simp [hns, ht, hm]

theorem ensure_header_ok {b w : Nat} {s : Sink} {f : SFile} (hs : SinkWF b w s f)
    (hb : b ≤ 13) (hw : w = 8 ∨ w = 16) :
    ensure_header s = .ok (f.size, f, s) := by
  obtain ⟨hsb, hsw, hfile, hwf, hidx, hfilt, hsh⟩ := hs
  subst hsb
  subst hsw
  simp only [ensure_header, hfile, ensure_header_file_ok hwf hb hw]
  rw [sink_eta hfile hidx hfilt hsh]

theorem ensure_header_file_err {b w : Nat} {dsk : Option SFile} {e : SfErr}
    (h : ensure_header_file b w dsk = .error e) :
    e = .corruptFile ∨ e = .formatMismatch := by
  cases dsk with
  | none => simp [ensure_header_file] at h
  | some f =>
    simp only [ensure_header_file] at h
    split_ifs at h <;> simp_all

theorem ensure_header_err {s : Sink} {e : SfErr} {s' : Sink}
    (h : ensure_header s = .error (e, s')) :
    (e = .corruptFile ∨ e = .formatMismatch) ∧ s' = s := by
  unfold ensure_header at h
  cases hh : ensure_header_file s.shardBits s.width s.file with
  | error e0 =>
    rw [hh] at h
    simp only [Except.error.injEq, Prod.mk.injEq] at h
    obtain ⟨he, hs⟩ := h
    subst he
    exact ⟨ensure_header_file_err hh, hs.symm⟩
  | ok x =>
    rw [hh] at h
    simp at h

theorem add_err_not_koo {s : Sink} {nf : Filter} {pfx : Nat} {e : SfErr} {s' : Sink}
    (h : add s nf pfx = .error (e, s')) : e ≠ .keyOutOfOrder := by
  unfold add at h
  split_ifs at h with h1
  · simp only [Except.error.injEq, Prod.mk.injEq] at h
    rw [← h.1]
    simp
  · cases hh : ensure_header s with
    | error es =>
      obtain ⟨e0, s0⟩ := es
      rw [hh] at h
      simp only [Except.error.injEq, Prod.mk.injEq] at h
      obtain ⟨he, -⟩ := h
      subst he
      rcases (ensure_header_err hh).1 with h2 | h2 <;> simp [h2]
    | ok x =>
      obtain ⟨ns, f, s1⟩ := x
      rw [hh] at h
      simp only at h
      split_ifs at h <;> simp only [Except.error.injEq, Prod.mk.injEq] at h <;>
        obtain ⟨he, -⟩ := h <;> subst he <;> simp

/-- The resulting file of a successful `add`: the filter body is
serialized at the old end of file, the index slot points at it, and the
file has grown by the serialized size. -/
def addFile (f : SFile) (nf : Filter) (pfx : Nat) : SFile :=
  { f with index := f.index.set pfx f.size,
           body := f.body ++ [(f.size, nf)],
           size := f.size + nf.sbytes }

theorem wordFit_eq {n : Nat} (h : n < 2 ^ 64) : wordFit n = n := by
  unfold wordFit word
  exact Nat.mod_eq_of_lt h

theorem addFile_wf {b w : Nat} {f : SFile} (hf : FileWF b w f) (hb : b ≤ 13)
    {nf : Filter} {pfx : Nat} (hpfx : pfx < max_shards b)
    (hemp : f.index.getD pfx 0 = empty_offset)
    (hsb1 : 0 < nf.sbytes) (hsb2 : nf.sbytes ≤ 2 ^ 32) :
    FileWF b w (addFile f nf pfx) := by
  obtain ⟨hhdr, hlen, hentry, hoff, hsz, hblen, hsize⟩ := hf
  have hnotempty : f.size ≠ empty_offset := by
    have := @size_bound b w f ⟨hhdr, hlen, hentry, hoff, hsz, hblen, hsize⟩ (by omega)
    unfold empty_offset
    omega
  have hbody_ne : ∀ e ∈ f.body, e.1 ≠ f.size := by
    intro e he
    have := (hoff e he).2
    omega
  have hpl : pfx < f.index.length := by omega
  refine ⟨hhdr, ?_, ?_, ?_, ?_, ?_, ?_⟩
  · simpa [addFile] using hlen
  · intro q hq hne
    by_cases hqp : q = pfx
    · subst hqp
      have hset : (addFile f nf q).index.getD q 0 = f.size := by
        simp only [addFile]
        exact getD_set_self hpl
      have hlk : (addFile f nf q).body.lookup f.size = some nf := by
        simp only [addFile]
        exact lookup_snoc_self hbody_ne
      rw [hset, hlk]
      simp
    · have hset : (addFile f nf pfx).index.getD q 0 = f.index.getD q 0 := by
        simp only [addFile]
        exact getD_set_ne hqp
      rw [hset] at hne ⊢
      have hlk := hentry q hq hne
      obtain ⟨v, hv⟩ := Option.isSome_iff_exists.mp hlk
      have hmem := lookup_mem hv
      have hvne : f.index.getD q 0 ≠ f.size := hbody_ne _ hmem
      have hlk2 : (addFile f nf pfx).body.lookup (f.index.getD q 0) =
          f.body.lookup (f.index.getD q 0) := by
        simp only [addFile]
        exact lookup_snoc_ne hvne
      rw [hlk2, hv]
      simp
  · intro e he
    simp only [addFile, List.mem_append, List.mem_singleton] at he
    rcases he with he | he
    · have h1 := hoff e he
      simp only [addFile]
      omega
    · subst he
      simp only [addFile]
      constructor
      · have := hsize; omega
      · omega
  · intro e he
    simp only [addFile, List.mem_append, List.mem_singleton] at he
    rcases he with he | he
    · exact hsz e he
    · subst he; exact ⟨hsb1, hsb2⟩
  · simp only [addFile, List.length_append, List.length_singleton]
    rw [countNonEmpty_set (by omega) hemp hnotempty, hblen]
  · simp only [addFile, sumSb_append]
    simp [sumSb, hsize]
    omega

theorem addFile_slotFun {b w : Nat} {f : SFile} (hf : FileWF b w f)
    {nf : Filter} {pfx : Nat} (hpfx : pfx < max_shards b)
    (hsz16 : b ≤ 16) (q : Nat) :
    slotFun (addFile f nf pfx) q = if q = pfx then some nf else slotFun f q := by
  obtain ⟨hhdr, hlen, hentry, hoff, hsz, hblen, hsize⟩ := hf
  have hbig := @size_bound b w f ⟨hhdr, hlen, hentry, hoff, hsz, hblen, hsize⟩ hsz16
  have hnotempty : f.size ≠ empty_offset := by
    unfold empty_offset; omega
  have hbody_ne : ∀ e ∈ f.body, e.1 ≠ f.size := by
    intro e he
    have := (hoff e he).2
    omega
  have hpl : pfx < f.index.length := by omega
  by_cases hqp : q = pfx
  · subst hqp
    have hset : (addFile f nf q).index.getD q 0 = f.size := by
      simp only [addFile]
      exact getD_set_self hpl
    have hlk : (addFile f nf q).body.lookup f.size = some nf := by
      simp only [addFile]
      exact lookup_snoc_self hbody_ne
    rw [if_pos rfl]
    simp only [slotFun, hset, if_neg hnotempty]
    exact hlk
  · have hset : (addFile f nf pfx).index.getD q 0 = f.index.getD q 0 := by
      simp only [addFile]
      exact getD_set_ne hqp
    rw [if_neg hqp]
    by_cases he : f.index.getD q 0 = empty_offset
    · simp only [slotFun, hset, he]
      simp
    · have hvne : f.index.getD q 0 ≠ f.size := by
        by_cases hq : q < max_shards b
        · have hlk := hentry q hq he
          obtain ⟨v, hv⟩ := Option.isSome_iff_exists.mp hlk
          exact hbody_ne _ (lookup_mem hv)
        · have hlen2 : f.index.length ≤ q := by omega
          have hz : f.index.getD q 0 = 0 := by
            rw [List.getD_eq_getElem?_getD, List.getElem?_eq_none hlen2]
            rfl
          rw [hz]
          have hbase : 16 ≤ base_length b := by unfold base_length; omega
          omega
      have hlk2 : (addFile f nf pfx).body.lookup (f.index.getD q 0) =
          f.body.lookup (f.index.getD q 0) := by
        simp only [addFile]
        exact lookup_snoc_ne hvne
      simp only [slotFun, hset, if_neg he]
      exact hlk2

theorem add_ok_spec {b w : Nat} {s : Sink} {f : SFile} (hs : SinkWF b w s f)
    (hb : b ≤ 13) (hw : w = 8 ∨ w = 16) {nf : Filter} {pfx : Nat}
    (hpfx : pfx < max_shards b) (hemp : f.index.getD pfx 0 = empty_offset)
    (hcap : s.shards ≠ max_shards b) (hsb1 : 0 < nf.sbytes) (hsb2 : nf.sbytes ≤ 2 ^ 32) :
    ∃ s', add s nf pfx = .ok s' ∧ SinkWF b w s' (addFile f nf pfx) ∧
      s'.shards = s.shards + 1 ∧ s'.streamKeys = s.streamKeys ∧
      s'.streamLastPfx = s.streamLastPfx ∧ s'.streamLastKey = s.streamLastKey := by
  have hEH := ensure_header_ok hs hb hw
  obtain ⟨hsb, hsw, hfile, hwf, hidx, hfilt, hsh⟩ := hs
  have hwrap : wordFit (f.size + nf.sbytes) = f.size + nf.sbytes := by
    have := size_bound hwf (by omega)
    apply wordFit_eq
    have : (2 : Nat) ^ 49 + 2 ^ 32 < 2 ^ 64 := by norm_num
    omega
  have hcap' : ¬s.shards = max_shards s.shardBits := by rw [hsb]; exact hcap
  have hcond : ¬({ f with size := wordFit (f.size + nf.sbytes) } : SFile).index.getD pfx 0
      ≠ empty_offset := by
    simp only [hemp]
    simp
  refine ⟨{ s with
      file := some (addFile f nf pfx),
      index := s.index.set pfx f.size,
      filters := load_filters (addFile f nf pfx),
      shards := s.shards + 1 }, ?_, ?_, by simp, by simp, by simp, by simp⟩
  · unfold add
    rw [if_neg hcap', hEH]
    simp only
    rw [if_neg hcond]
    simp only [addFile, hwrap]
  · have hwf' : FileWF b w (addFile f nf pfx) := addFile_wf hwf hb hpfx hemp hsb1 hsb2
    have hcount : countNonEmpty ((addFile f nf pfx).index) = countNonEmpty f.index + 1 := by
      have hlen := hwf.2.1
      have hnotempty : f.size ≠ empty_offset := by
        have := size_bound hwf (by omega)
        unfold empty_offset
        omega
      have hpl : pfx < f.index.length := by omega
      simp only [addFile]
      exact countNonEmpty_set hpl hemp hnotempty
    refine ⟨hsb, hsw, rfl, hwf', ?_, rfl, ?_⟩
    · simp only [addFile, hidx]
    · simp only [hcount, hsh]

theorem add_occupied_spec {b w : Nat} {s : Sink} {f : SFile} (hs : SinkWF b w s f)
    (hb : b ≤ 13) (hw : w = 8 ∨ w = 16) {nf : Filter} {pfx : Nat}
    (hocc : f.index.getD pfx 0 ≠ empty_offset)
    (hcap : s.shards ≠ max_shards b) :
    add s nf pfx =
      .error (.slotOccupied,
        { s with file := some { f with size := wordFit (f.size + nf.sbytes) } }) := by
  have hEH := ensure_header_ok hs hb hw
  obtain ⟨hsb, hsw, hfile, hwf, hidx, hfilt, hsh⟩ := hs
  have hcap' : ¬s.shards = max_shards s.shardBits := by rw [hsb]; exact hcap
  have hcond : ({ f with size := wordFit (f.size + nf.sbytes) } : SFile).index.getD pfx 0
      ≠ empty_offset := hocc
  unfold add
  rw [if_neg hcap', hEH]
  simp only
  rw [if_pos hcond]

theorem buildAdds_nil (s : Sink) : buildAdds s [] = .ok s := rfl

theorem buildAdds_cons (s : Sink) (e : Filter × Nat) (l : List (Filter × Nat)) :
    buildAdds s (e :: l) =
      match add s e.1 e.2 with
      | .ok s1 => buildAdds s1 l
      | .error es => .error es := by
  cases h : add s e.1 e.2 with
  | ok s1 =>
    simp only [buildAdds, List.foldlM_cons, h]
    rfl
  | error es =>
    simp only [buildAdds, List.foldlM_cons, h]
    rfl

theorem assignList_not_mem {base : Nat → Option Filter} {l : List (Filter × Nat)}
    {pfx : Nat} (h : pfx ∉ l.map Prod.snd) : assignList base l pfx = base pfx := by
  induction l generalizing base with
  | nil => rfl
  | cons e t ih =>
    simp only [List.map_cons, List.mem_cons] at h
    push_neg at h
    simp only [assignList, List.foldl_cons]
    have := @ih (Function.update base e.2 (some e.1)) h.2
    rw [assignList] at this
    rw [this, Function.update_noteq h.1]

theorem pair_eq_of_key_eq {l : List (Filter × Nat)} (hnd : (l.map Prod.snd).Nodup)
    {x y : Filter × Nat} (hx : x ∈ l) (hy : y ∈ l) (hk : x.2 = y.2) : x = y := by
  induction l with
  | nil => simp at hx
  | cons a t ih =>
    simp only [List.map_cons, List.nodup_cons] at hnd
    rcases List.mem_cons.mp hx with hx1 | hx1 <;> rcases List.mem_cons.mp hy with hy1 | hy1
    · rw [hx1, hy1]
    · exfalso
      apply hnd.1
      rw [← hx1, hk]
      exact List.mem_map_of_mem Prod.snd hy1
    · exfalso
      apply hnd.1
      rw [← hy1, ← hk]
      exact List.mem_map_of_mem Prod.snd hx1
    · exact ih hnd.2 hx1 hy1

theorem assignList_mem {base : Nat → Option Filter} {l : List (Filter × Nat)}
    (hnd : (l.map Prod.snd).Nodup) {nf : Filter} {pfx : Nat} (hmem : (nf, pfx) ∈ l) :
    assignList base l pfx = some nf := by
  induction l generalizing base with
  | nil => simp at hmem
  | cons e t ih =>
    simp only [List.map_cons, List.nodup_cons] at hnd
    rcases List.mem_cons.mp hmem with hm | hm
    · subst hm
      simp only [assignList, List.foldl_cons]
      have hnot : pfx ∉ t.map Prod.snd := hnd.1
      have := @assignList_not_mem (Function.update base pfx (some nf)) t pfx hnot
      rw [assignList] at this
      rw [this, Function.update_same]
    · simp only [assignList, List.foldl_cons]
      exact ih hnd.2 hm

theorem assignList_perm {base : Nat → Option Filter} {l l' : List (Filter × Nat)}
    (hp : l.Perm l') (hnd : (l.map Prod.snd).Nodup) :
    assignList base l = assignList base l' := by
  apply hp.foldl_eq'
  intro x hx y hy z
  by_cases hk : x.2 = y.2
  · rw [pair_eq_of_key_eq hnd hx hy hk]
  · exact Function.update_comm hk _ _ _

theorem buildAdds_spec {b w : Nat} (hb : b ≤ 13) (hw : w = 8 ∨ w = 16)
    (l : List (Filter × Nat)) :
    ∀ (s : Sink) (f : SFile), SinkWF b w s f →
    (l.map Prod.snd).Nodup →
    (∀ e ∈ l, e.2 < max_shards b ∧ 0 < e.1.sbytes ∧ e.1.sbytes ≤ 2 ^ 32) →
    (∀ e ∈ l, f.index.getD e.2 0 = empty_offset) →
    s.shards + l.length ≤ max_shards b →
    ∃ s' f', buildAdds s l = .ok s' ∧ SinkWF b w s' f' ∧
      s'.shards = s.shards + l.length ∧
      (∀ q, slotFun f' q = assignList (slotFun f) l q) ∧
      s'.streamKeys = s.streamKeys ∧ s'.streamLastPfx = s.streamLastPfx ∧
      s'.streamLastKey = s.streamLastKey := by
  induction l with
  | nil =>
    intro s f hs hnd hbnd hemp hcap
    exact ⟨s, f, rfl, hs, by simp, fun q => rfl, rfl, rfl, rfl⟩
  | cons e t ih =>
    intro s f hs hnd hbnd hemp hcap
    have hcap1 : s.shards ≠ max_shards b := by
      simp only [List.length_cons] at hcap
      omega
    have he := hbnd e (List.mem_cons_self _ _)
    obtain ⟨s1, hadd, hs1, hsh1, hk1, hp1, hl1⟩ :=
      add_ok_spec hs hb hw he.1 (hemp e (List.mem_cons_self _ _)) hcap1 he.2.1 he.2.2
    simp only [List.map_cons, List.nodup_cons] at hnd
    have hlen := hs.2.2.2.1.2.1
    obtain ⟨s', f', hrun, hs', hsh', hslot', hk', hp', hl'⟩ :=
      ih s1 (addFile f e.1 e.2) hs1 hnd.2
        (fun e' he' => hbnd e' (List.mem_cons_of_mem _ he'))
        (fun e' he' => by
          have hne : e'.2 ≠ e.2 := by
            intro hcontra
            exact hnd.1 (hcontra ▸ List.mem_map_of_mem Prod.snd he')
          simp only [addFile]
          rw [getD_set_ne hne]
          exact hemp e' (List.mem_cons_of_mem _ he'))
        (by simp only [List.length_cons] at hcap; omega)
    refine ⟨s', f', ?_, hs', ?_, ?_, ?_, ?_, ?_⟩
    · rw [buildAdds_cons, hadd]
      exact hrun
    · simp only [List.length_cons]
      omega
    · intro q
      rw [hslot' q]
      have hbase : slotFun (addFile f e.1 e.2) =
          Function.update (slotFun f) e.2 (some e.1) := by
        funext q'
        rw [addFile_slotFun hs.2.2.2.1 he.1 (by omega) q', Function.update_apply]
      rw [hbase]
      rfl
    · rw [hk', hk1]
    · rw [hp', hp1]
    · rw [hl', hl1]

theorem pfxList_snoc (b : Nat) (done : List Nat) (k : Nat) :
    pfxList b (done ++ [k]) = pfxList b done ++ [extractPfx b k] := by
  simp [pfxList]

theorem blockOf_snoc_same {b q k : Nat} (done : List Nat) (h : extractPfx b k = q) :
    blockOf b q (done ++ [k]) = blockOf b q done ++ [k] := by
  simp [blockOf, List.filter_append, h]

theorem blockOf_snoc_ne {b q k : Nat} (done : List Nat) (h : extractPfx b k ≠ q) :
    blockOf b q (done ++ [k]) = blockOf b q done := by
  simp [blockOf, List.filter_append, h]

theorem blockOf_eq_nil {b q : Nat} {done : List Nat}
    (h : ∀ j ∈ done, extractPfx b j ≠ q) : blockOf b q done = [] := by
  rw [blockOf, List.filter_eq_nil]
  intro j hj
  simp [h j hj]

theorem getLast_mem_of_ne {l : List Nat} (h : l ≠ []) : (l.getLast?).getD 0 ∈ l := by
  induction l with
  | nil => exact absurd rfl h
  | cons a t ih =>
    cases t with
    | nil => simp
    | cons bb t' =>
      rw [List.getLast?_cons_cons]
      exact List.mem_cons_of_mem _ (ih (by simp))

theorem mem_le_getLast : ∀ {l : List Nat}, l.Chain' (· ≤ ·) → ∀ {j : Nat}, j ∈ l →
    j ≤ (l.getLast?).getD 0 := by
  intro l
  induction l with
  | nil =>
    intro _ j hj
    simp at hj
  | cons a t ih =>
    intro hc j hj
    cases t with
    | nil =>
      simp at hj
      simp [hj]
    | cons bb t' =>
      rw [List.getLast?_cons_cons]
      rw [List.chain'_cons] at hc
      rcases List.mem_cons.mp hj with hj1 | hj1
      · subst hj1
        calc j ≤ bb := hc.1
        _ ≤ ((bb :: t').getLast?).getD 0 := ih hc.2 (List.mem_cons_self _ _)
      · exact ih hc.2 hj1

theorem assignDur_nil (b : Nat) (sz : List Nat → Nat) (lp q : Nat) :
    assignDur b sz [] lp q = none := by
  simp [assignDur, pfxList]

theorem assignDur_self {b : Nat} {sz : List Nat → Nat} {done : List Nat} {lp : Nat}
    (hlp : done ≠ [] → lp ∈ pfxList b done) :
    assignDur b sz done lp lp = none := by
  rw [assignDur, if_neg (by simp), if_neg ?_]
  rintro ⟨h0, hne, hnotin⟩
  exact hnotin (h0 ▸ hlp hne)

theorem assignDur_snoc_same {b : Nat} {sz : List Nat → Nat} {done : List Nat} {lpv k : Nat}
    (hk : extractPfx b k = lpv)
    (hlp : done ≠ [] → lpv ∈ pfxList b done)
    (hlp0 : done = [] → lpv = 0) :
    ∀ q, assignDur b sz (done ++ [k]) lpv q = assignDur b sz done lpv q := by
  intro q
  by_cases hq : q = lpv
  · have hA : done ++ [k] ≠ [] → lpv ∈ pfxList b (done ++ [k]) := by
      intro _
      rw [pfxList_snoc]
      exact List.mem_append_right _ (by simp [hk])
    rw [hq, assignDur_self hA, assignDur_self hlp]
  · rw [assignDur, assignDur, pfxList_snoc, hk]
    by_cases hmemq : q ∈ pfxList b done
    · rw [if_pos ⟨List.mem_append_left _ hmemq, hq⟩,
        blockOf_snoc_ne done (by rw [hk]; exact Ne.symm hq), if_pos ⟨hmemq, hq⟩]
    · have hL2 : ¬(q ∈ pfxList b done ++ [lpv] ∧ q ≠ lpv) := by
        rintro ⟨hin, -⟩
        rcases List.mem_append.mp hin with h1 | h1
        · exact hmemq h1
        · exact hq (by simpa using h1)
      rw [if_neg hL2]
      by_cases hq0 : q = 0
      · subst hq0
        have hlpne : lpv ≠ 0 := fun h => hq h.symm
        have hdne : done ≠ [] := fun h => hlpne (hlp0 h)
        have hno1 : (0 : Nat) ∉ pfxList b done ++ [lpv] := by
          intro hin
          rcases List.mem_append.mp hin with h1 | h1
          · exact hmemq h1
          · have hz : (0 : Nat) = lpv := by simpa using h1
            exact hlpne hz.symm
        rw [if_pos ⟨rfl, by simp, hno1⟩, if_neg (fun h => hmemq h.1),
          if_pos ⟨rfl, hdne, hmemq⟩]
      · rw [if_neg (fun h => hq0 h.1), if_neg (fun h => hmemq h.1),
          if_neg (fun h => hq0 h.1)]

/-- The slot assignment after the rollover triggered by key `k` whose
selector exceeds the previous one: the buffered block for `lpv` is added
at slot `lpv` and the in-progress selector becomes that of `k`. -/
theorem assignDur_rollover {b : Nat} {sz : List Nat → Nat} {done : List Nat} {lpv k : Nat}
    (hmono : ∀ j ∈ done, extractPfx b j ≤ lpv)
    (hlp : done ≠ [] → lpv ∈ pfxList b done)
    (hlp0 : done = [] → lpv = 0)
    (hgt : lpv < extractPfx b k) :
    ∀ q, assignDur b sz (done ++ [k]) (extractPfx b k) q =
      Function.update (assignDur b sz done lpv) lpv
        (some (Filter.ofKeys sz (blockOf b lpv done))) q := by
  intro q
  have hblock_ne : extractPfx b k ∉ pfxList b done := by
    intro hin
    obtain ⟨j, hj, hje⟩ := List.mem_map.mp hin
    have := hmono j hj
    omega
  by_cases hq : q = lpv
  · rw [hq, Function.update_same, assignDur, pfxList_snoc]
    by_cases hd : done = []
    · have h0 : lpv = 0 := hlp0 hd
      have hA : ¬(lpv ∈ pfxList b done ++ [extractPfx b k] ∧ lpv ≠ extractPfx b k) := by
        rintro ⟨hin, -⟩
        rcases List.mem_append.mp hin with h1 | h1
        · rw [hd] at h1
          simp [pfxList] at h1
        · have hle : lpv = extractPfx b k := by simpa using h1
          omega
      have hB : (0 : Nat) ∉ pfxList b done ++ [extractPfx b k] := by
        intro hin
        rcases List.mem_append.mp hin with h1 | h1
        · rw [hd] at h1
          simp [pfxList] at h1
        · have hz : extractPfx b k = 0 := ((by simpa using h1) : (0 : Nat) = extractPfx b k).symm
          omega
      rw [if_neg hA, if_pos ⟨h0, by simp, hB⟩, hd]
      simp [blockOf]
    · have hin : lpv ∈ pfxList b done := hlp hd
      rw [if_pos ⟨List.mem_append_left _ hin, by omega⟩,
        blockOf_snoc_ne done (by omega)]
  · rw [Function.update_noteq hq, assignDur, assignDur, pfxList_snoc]
    by_cases hqk : q = extractPfx b k
    · have hC1 : ¬(q ∈ pfxList b done ++ [extractPfx b k] ∧ q ≠ extractPfx b k) := by
        rintro ⟨-, hne⟩
        exact hne hqk
      have hC2 : ¬(q = 0 ∧ done ++ [k] ≠ [] ∧ 0 ∉ pfxList b done ++ [extractPfx b k]) := by
        rintro ⟨h0, -, -⟩
        rw [h0] at hqk
        omega
      have hD : ¬(q ∈ pfxList b done ∧ q ≠ lpv) := by
        rintro ⟨hin, -⟩
        rw [hqk] at hin
        exact hblock_ne hin
      have hE : ¬(q = 0 ∧ done ≠ [] ∧ 0 ∉ pfxList b done) := by
        rintro ⟨h0, -, -⟩
        rw [h0] at hqk
        omega
      rw [if_neg hC1, if_neg hC2, if_neg hD, if_neg hE]
    · by_cases hmemq : q ∈ pfxList b done
      · rw [if_pos ⟨List.mem_append_left _ hmemq, hqk⟩,
          blockOf_snoc_ne done (Ne.symm hqk), if_pos ⟨hmemq, hq⟩]
      · have hF : ¬(q ∈ pfxList b done ++ [extractPfx b k] ∧ q ≠ extractPfx b k) := by
          rintro ⟨hin, -⟩
          rcases List.mem_append.mp hin with h1 | h1
          · exact hmemq h1
          · exact hqk (by simpa using h1)
        rw [if_neg hF]
        by_cases hq0 : q = 0
        · subst hq0
          have hdne : done ≠ [] := fun h => hq (hlp0 h).symm
          have hG : (0 : Nat) ∉ pfxList b done ++ [extractPfx b k] := by
            intro hin
            rcases List.mem_append.mp hin with h1 | h1
            · exact hmemq h1
            · have hz : extractPfx b k = 0 := ((by simpa using h1) : (0 : Nat) = extractPfx b k).symm
              omega
          rw [if_pos ⟨rfl, by simp, hG⟩, if_neg (fun h => hmemq h.1),
            if_pos ⟨rfl, hdne, hmemq⟩]
        · rw [if_neg (fun h => hq0 h.1), if_neg (fun h => hmemq h.1),
            if_neg (fun h => hq0 h.1)]

/-- After `stream_finalize` adds the trailing block at slot `lpv`, the
mid-stream assignment becomes the final one. -/
theorem assignFinal_of_dur {b : Nat} {sz : List Nat → Nat} {ks : List Nat} {lpv : Nat}
    (hlp : lpv ∈ pfxList b ks) :
    ∀ q, assignFinal b sz ks q =
      Function.update (assignDur b sz ks lpv) lpv
        (some (Filter.ofKeys sz (blockOf b lpv ks))) q := by
  intro q
  by_cases hq : q = lpv
  · rw [hq, Function.update_same, assignFinal, if_pos hlp]
  · rw [Function.update_noteq hq, assignFinal, assignDur]
    by_cases hmemq : q ∈ pfxList b ks
    · rw [if_pos hmemq, if_pos ⟨hmemq, hq⟩]
    · conv_rhs => rw [if_neg (fun h : q ∈ pfxList b ks ∧ q ≠ lpv => hmemq h.1)]
      rw [if_neg hmemq]

theorem assignFinal_nil (b : Nat) (sz : List Nat → Nat) (q : Nat) :
    assignFinal b sz [] q = none := by
  simp [assignFinal, pfxList]

theorem streamFold_nil (sz : List Nat → Nat) (s : Sink) : streamFold sz s [] = .ok s := rfl

theorem streamFold_cons (sz : List Nat → Nat) (s : Sink) (k : Nat) (ks : List Nat) :
    streamFold sz s (k :: ks) =
      match stream_add sz s k with
      | .ok s1 => streamFold sz s1 ks
      | .error es => .error es := by
  cases h : stream_add sz s k with
  | ok s1 =>
    simp only [streamFold, List.foldlM_cons, h]
    rfl
  | error es =>
    simp only [streamFold, List.foldlM_cons, h]
    rfl

theorem chain_last_le {done rest : List Nat} {k : Nat}
    (h : (done ++ k :: rest).Chain' (· ≤ ·)) : (done.getLast?).getD 0 ≤ k := by
  rcases hd : done.getLast? with - | x
  · simp
  · have hx := (List.chain'_append.mp h).2.2 x (by rw [hd]; rfl) k rfl
    simpa [hd] using hx

theorem stream_add_same_pfx {b w : Nat} {sz : List Nat → Nat} {s : Sink} {f : SFile}
    (hs : SinkWF b w s f) {k : Nat} (hnoKOO : ¬k < s.streamLastKey)
    (hpeq : extractPfx b k = s.streamLastPfx) :
    stream_add sz s k =
      .ok { s with streamLastKey := k, streamKeys := s.streamKeys ++ [k] } := by
  rw [stream_add, if_neg hnoKOO, hs.1, if_neg (fun h => h hpeq)]

/-- One streaming step preserves the invariant. -/
theorem stream_add_inv {b w : Nat} {sz : List Nat → Nat} (hb1 : 1 ≤ b) (hb : b ≤ 13)
    (hw : w = 8 ∨ w = 16) (hsz : SzOk sz) {done : List Nat} {s : Sink} {f : SFile}
    (hinv : StreamInv b w sz done s f) {k : Nat} (hk64 : k < 2 ^ 64)
    (hdone64 : ∀ j ∈ done, j < 2 ^ 64)
    (hchain : done.Chain' (· ≤ ·))
    (hlast_le : (done.getLast?).getD 0 ≤ k) :
    ∃ s' f', stream_add sz s k = .ok s' ∧ StreamInv b w sz (done ++ [k]) s' f' := by
  obtain ⟨hwf, hkeys_eq, hlast, hnil_c, hne_c, hassign⟩ := hinv
  have hnoKOO : ¬k < s.streamLastKey := by rw [hlast]; omega
  have hlp0 : done = [] → s.streamLastPfx = 0 := fun h => (hnil_c h).1
  have hlpmem : done ≠ [] → s.streamLastPfx ∈ pfxList b done := by
    intro hne
    rw [(hne_c hne).1]
    exact List.mem_map_of_mem _ (getLast_mem_of_ne hne)
  have hmono : ∀ j ∈ done, extractPfx b j ≤ s.streamLastPfx := by
    intro j hj
    have hne : done ≠ [] := by rintro rfl; simp at hj
    rw [(hne_c hne).1]
    exact extractPfx_mono b j _ (by omega) (hdone64 j hj)
      (hdone64 _ (getLast_mem_of_ne hne)) (mem_le_getLast hchain hj)
  by_cases hpeq : extractPfx b k = s.streamLastPfx
  · refine ⟨_, f, stream_add_same_pfx hwf hnoKOO hpeq, ⟨?_, ?_, ?_, ?_, ?_, ?_⟩⟩
    · exact ⟨hwf.1, hwf.2.1, hwf.2.2.1, hwf.2.2.2.1, hwf.2.2.2.2.1, hwf.2.2.2.2.2.1,
        hwf.2.2.2.2.2.2⟩
    · show s.streamKeys ++ [k] = blockOf b s.streamLastPfx (done ++ [k])
      rw [blockOf_snoc_same done hpeq, hkeys_eq]
    · show k = ((done ++ [k]).getLast?).getD 0
      rw [List.getLast?_concat]
      rfl
    · intro h
      exact absurd h (by simp)
    · intro _
      constructor
      · show s.streamLastPfx = extractPfx b (((done ++ [k]).getLast?).getD 0)
        rw [List.getLast?_concat]
        exact hpeq.symm
      · show s.shards ≤ s.streamLastPfx
        by_cases hd : done = []
        · have := hnil_c hd
          omega
        · exact (hne_c hd).2
    · intro q
      show slotFun f q = assignDur b sz (done ++ [k]) s.streamLastPfx q
      rw [assignDur_snoc_same hpeq hlpmem hlp0 q]
      exact hassign q
  · -- rollover: the selector strictly increased
    have hgt : s.streamLastPfx < extractPfx b k := by
      by_cases hd : done = []
      · have h0 := hlp0 hd
        omega
      · have hle : s.streamLastPfx ≤ extractPfx b k := by
          rw [(hne_c hd).1]
          exact extractPfx_mono b _ k (by omega) (hdone64 _ (getLast_mem_of_ne hd))
            hk64 hlast_le
        omega
    have hlp_lt : s.streamLastPfx < max_shards b := by
      have := extractPfx_lt b k (by omega) hk64
      omega
    have hslot_none : slotFun f s.streamLastPfx = none := by
      rw [hassign _]
      exact assignDur_self hlpmem
    have hemp : f.index.getD s.streamLastPfx 0 = empty_offset :=
      (slotFun_none_iff hwf.2.2.2.1 hlp_lt).mp hslot_none
    have hcap : s.shards ≠ max_shards b := by
      by_cases hd : done = []
      · have := hnil_c hd
        have hpos : 0 < max_shards b := Nat.pos_pow_of_pos _ (by omega)
        omega
      · have := (hne_c hd).2
        omega
    have hs1 : SinkWF b w { s with streamLastKey := k } f :=
      ⟨hwf.1, hwf.2.1, hwf.2.2.1, hwf.2.2.2.1, hwf.2.2.2.2.1, hwf.2.2.2.2.2.1,
        hwf.2.2.2.2.2.2⟩
    have hsb1 : 0 < (Filter.ofKeys sz s.streamKeys).sbytes := (hsz s.streamKeys).1
    have hsb2 : (Filter.ofKeys sz s.streamKeys).sbytes ≤ 2 ^ 32 := (hsz s.streamKeys).2
    obtain ⟨s2, hadd, hs2, hsh2, hk2, hp2, hl2⟩ :=
      add_ok_spec hs1 hb hw hlp_lt hemp hcap hsb1 hsb2
    have hres : stream_add sz s k =
        .ok { s2 with streamKeys := [k], streamLastPfx := extractPfx b k } := by
      rw [stream_add, if_neg hnoKOO,
        if_pos (show extractPfx s.shardBits k ≠ s.streamLastPfx by rw [hwf.1]; exact hpeq),
        hadd, hwf.1]
    refine ⟨_, addFile f (Filter.ofKeys sz s.streamKeys) s.streamLastPfx,
      hres, ⟨?_, ?_, ?_, ?_, ?_, ?_⟩⟩
    · exact ⟨hs2.1, hs2.2.1, hs2.2.2.1, hs2.2.2.2.1, hs2.2.2.2.2.1, hs2.2.2.2.2.2.1,
        hs2.2.2.2.2.2.2⟩
    · show [k] = blockOf b (extractPfx b k) (done ++ [k])
      have hn : ∀ j ∈ done, extractPfx b j ≠ extractPfx b k := by
        intro j hj
        have := hmono j hj
        omega
      rw [blockOf_snoc_same done rfl, blockOf_eq_nil hn]
      rfl
    · show s2.streamLastKey = ((done ++ [k]).getLast?).getD 0
      rw [List.getLast?_concat, hl2]
      rfl
    · intro h
      exact absurd h (by simp)
    · intro _
      constructor
      · show extractPfx b k = extractPfx b (((done ++ [k]).getLast?).getD 0)
        rw [List.getLast?_concat]
        rfl
      · show s2.shards ≤ extractPfx b k
        rw [hsh2]
        have hsle : s.shards ≤ s.streamLastPfx := by
          by_cases hd : done = []
          · have := hnil_c hd
            omega
          · exact (hne_c hd).2
        show s.shards + 1 ≤ extractPfx b k
        omega
    · intro q
      show slotFun (addFile f (Filter.ofKeys sz s.streamKeys) s.streamLastPfx) q =
        assignDur b sz (done ++ [k]) (extractPfx b k) q
      rw [addFile_slotFun hwf.2.2.2.1 hlp_lt (by omega) q,
        assignDur_rollover hmono hlpmem hlp0 hgt q, hkeys_eq, Function.update_apply]
      by_cases hql : q = s.streamLastPfx
      · rw [if_pos hql, if_pos hql]
      · rw [if_neg hql, if_neg hql]
        exact hassign q

theorem getD_replicate (n a q : Nat) :
    (List.replicate n a).getD q 0 = if q < n then a else 0 := by
  rw [List.getD_eq_getElem?_getD, List.getElem?_replicate]
  by_cases h : q < n <;> simp [h]

theorem freshFile_wf (b w : Nat) : FileWF b w (freshFile b w) := by
  refine ⟨rfl, by simp [freshFile], ?_, ?_, ?_, ?_, ?_⟩
  · intro q hq hne
    rw [freshFile] at hne
    simp only at hne
    rw [getD_replicate] at hne
    rw [max_shards] at hq hne
    simp [hq] at hne
  · intro e he
    simp [freshFile] at he
  · intro e he
    simp [freshFile] at he
  · simp [freshFile, countNonEmpty_replicate]
  · simp [freshFile, sumSb]

theorem freshFile_slotFun (b w q : Nat) : slotFun (freshFile b w) q = none := by
  rw [slotFun]
  simp only [freshFile]
  rw [getD_replicate]
  by_cases h : q < max_shards b
  · simp [h]
  · have h0 : ¬(0 : Nat) = empty_offset := by norm_num [empty_offset]
    simp [h, h0, List.lookup]

theorem freshSink_wf (b w : Nat) : SinkWF b w (freshSink b w) (freshFile b w) :=
  ⟨rfl, rfl, rfl, freshFile_wf b w, rfl, rfl, rfl⟩

theorem streamInv_init (b w : Nat) (sz : List Nat → Nat) :
    StreamInv b w sz [] (stream_prepare (freshSink b w)) (freshFile b w) := by
  refine ⟨?_, rfl, rfl, fun _ => ⟨rfl, ?_⟩, fun h => absurd rfl h, ?_⟩
  · have h := freshSink_wf b w
    exact ⟨h.1, h.2.1, h.2.2.1, h.2.2.2.1, h.2.2.2.2.1, h.2.2.2.2.2.1, h.2.2.2.2.2.2⟩
  · show countNonEmpty (freshFile b w).index = 0
    simp [freshFile, countNonEmpty_replicate]
  · intro q
    rw [freshFile_slotFun, assignDur_nil]

theorem streamFold_inv {b w : Nat} {sz : List Nat → Nat} (hb1 : 1 ≤ b) (hb : b ≤ 13)
    (hw : w = 8 ∨ w = 16) (hsz : SzOk sz) {ks : List Nat}
    (hkeys : ∀ k ∈ ks, k < 2 ^ 64) (hsort : ks.Chain' (· ≤ ·)) :
    ∀ (rest done : List Nat) (s : Sink) (f : SFile), done ++ rest = ks →
      StreamInv b w sz done s f →
      ∃ s' f', streamFold sz s rest = .ok s' ∧ StreamInv b w sz ks s' f' := by
  intro rest
  induction rest with
  | nil =>
    intro done s f heq hinv
    rw [List.append_nil] at heq
    subst heq
    exact ⟨s, f, rfl, hinv⟩
  | cons k rest2 ih =>
    intro done s f heq hinv
    have hcd : (done ++ k :: rest2).Chain' (· ≤ ·) := by rw [heq]; exact hsort
    have hchain_done : done.Chain' (· ≤ ·) := (List.chain'_append.mp hcd).1
    have hlast_le := chain_last_le hcd
    have hk64 : k < 2 ^ 64 := hkeys k
      (by rw [← heq]; exact List.mem_append_right _ (List.mem_cons_self _ _))
    have hdone64 : ∀ j ∈ done, j < 2 ^ 64 := fun j hj => hkeys j
      (by rw [← heq]; exact List.mem_append_left _ hj)
    obtain ⟨s1, f1, hstep, hinv1⟩ :=
      stream_add_inv hb1 hb hw hsz hinv hk64 hdone64 hchain_done hlast_le
    obtain ⟨s', f', hrun, hinv'⟩ := ih (done ++ [k]) s1 f1 (by rw [← heq]; simp) hinv1
    refine ⟨s', f', ?_, hinv'⟩
    rw [streamFold_cons, hstep]
    exact hrun

/-- A full streaming run over a sorted key list yields a well-formed
sink whose file holds exactly the final slot assignment. -/
theorem streamRun_spec {b w : Nat} {sz : List Nat → Nat} (hb1 : 1 ≤ b) (hb : b ≤ 13)
    (hw : w = 8 ∨ w = 16) (hsz : SzOk sz) (ks : List Nat)
    (hkeys : ∀ k ∈ ks, k < 2 ^ 64) (hsort : ks.Chain' (· ≤ ·)) :
    ∃ s' f', streamRun b w sz ks = .ok s' ∧ SinkWF b w s' f' ∧
      (∀ q, slotFun f' q = assignFinal b sz ks q) := by
  obtain ⟨s1, f1, hrun, hinv⟩ := streamFold_inv hb1 hb hw hsz hkeys hsort ks []
    (stream_prepare (freshSink b w)) (freshFile b w) rfl (streamInv_init b w sz)
  obtain ⟨hwf1, hkeys1, hlast1, hnil1, hne1, hassign1⟩ := hinv
  by_cases hks : ks = []
  · subst hks
    have hempty : s1.streamKeys = [] := by
      rw [hkeys1]
      rfl
    refine ⟨s1, f1, ?_, hwf1, ?_⟩
    · rw [streamRun, hrun]
      simp only
      rw [stream_finalize, if_pos (by rw [hempty]; rfl)]
    · intro q
      rw [hassign1 q, assignDur_nil, assignFinal_nil]
  · have hlp := (hne1 hks).1
    have hlpmem : s1.streamLastPfx ∈ pfxList b ks := by
      rw [hlp]
      exact List.mem_map_of_mem _ (getLast_mem_of_ne hks)
    have hlast_mem : (ks.getLast?).getD 0 ∈ ks := getLast_mem_of_ne hks
    have hlp_lt : s1.streamLastPfx < max_shards b := by
      rw [hlp]
      exact extractPfx_lt b _ (by omega) (hkeys _ hlast_mem)
    have hbuf_ne : ¬s1.streamKeys.isEmpty = true := by
      rw [hkeys1]
      have : (ks.getLast?).getD 0 ∈ blockOf b s1.streamLastPfx ks := by
        rw [blockOf, List.mem_filter]
        exact ⟨hlast_mem, by rw [hlp]; simp⟩
      intro hcontra
      rw [List.isEmpty_iff] at hcontra
      rw [hcontra] at this
      simp at this
    have hslot_none : slotFun f1 s1.streamLastPfx = none := by
      rw [hassign1 _]
      exact assignDur_self (fun _ => hlpmem)
    have hemp : f1.index.getD s1.streamLastPfx 0 = empty_offset :=
      (slotFun_none_iff hwf1.2.2.2.1 hlp_lt).mp hslot_none
    have hcap : s1.shards ≠ max_shards b := by
      have := (hne1 hks).2
      omega
    have hsb1 : 0 < (Filter.ofKeys sz s1.streamKeys).sbytes := (hsz s1.streamKeys).1
    have hsb2 : (Filter.ofKeys sz s1.streamKeys).sbytes ≤ 2 ^ 32 := (hsz s1.streamKeys).2
    obtain ⟨s2, hadd, hs2, hsh2, hk2, hp2, hl2⟩ :=
      add_ok_spec hwf1 hb hw hlp_lt hemp hcap hsb1 hsb2
    refine ⟨s2, addFile f1 (Filter.ofKeys sz s1.streamKeys) s1.streamLastPfx, ?_, hs2, ?_⟩
    · rw [streamRun, hrun]
      simp only
      rw [stream_finalize, if_neg hbuf_ne]
      exact hadd
    · intro q
      rw [addFile_slotFun hwf1.2.2.2.1 hlp_lt (by omega) q, assignFinal_of_dur hlpmem q,
        hkeys1, Function.update_apply]
      by_cases hql : q = s1.streamLastPfx
      · rw [if_pos hql, if_pos hql]
      · rw [if_neg hql, if_neg hql]
        exact hassign1 q

theorem sourceOpen_ok {b w : Nat} {f : SFile} (hhdr : f.header = mkHeader b w)
    (hb : b ≤ 13) (hw : w = 8 ∨ w = 16) :
    sourceOpen b w (some f) =
      .ok ⟨b, f.index, load_filters f, countNonEmpty f.index⟩ := by
  have ht : check_type_id w f.header = true := by
    rw [hhdr]; exact check_type_id_mkHeader b w (by omega) hw
  have hm : check_max_shards b f.header = true := by
    rw [hhdr]; exact check_max_shards_mkHeader b w hb hw
  rw [sourceOpen, ht, hm]
  simp

theorem containsVia_slot {b w : Nat} {f : SFile} (hf : FileWF b w f)
    (fp : List Nat → Nat → Bool) (k : Nat) :
    containsVia fp b (load_filters f) k =
      match slotFun f (extractPfx b k) with
      | some fl => if fl.populated then fl.mem fp k else false
      | none => false := by
  simp only [containsVia]
  rw [load_filters_getD hf]
  cases h : slotFun f (extractPfx b k) with
  | none => simp [defaultFilter]
  | some fl =>
    simp only [Option.getD_some]
    cases hp : fl.populated <;> simp [hp]

theorem stream_add_no_koo {sz : List Nat → Nat} {s : Sink} {k : Nat}
    (hk : ¬k < s.streamLastKey) {e : SfErr} {s' : Sink}
    (h : stream_add sz s k = .error (e, s')) : e ≠ .keyOutOfOrder := by
  rw [stream_add, if_neg hk] at h
  split_ifs at h with hp
  · cases hh : add { s with streamLastKey := k } (Filter.ofKeys sz s.streamKeys)
        s.streamLastPfx with
    | error es =>
      obtain ⟨e0, s0⟩ := es
      rw [hh] at h
      simp only [Except.error.injEq, Prod.mk.injEq] at h
      rw [← h.1]
      exact add_err_not_koo hh
    | ok s2 =>
      rw [hh] at h
      simp at h
  all_goals simp at h

/-- A slot whose index entry is the EMPTY sentinel loads as the
default-constructed (unpopulated) filter. -/
theorem load_filters_getD_of_empty {f : SFile} {q : Nat}
    (h : f.index.getD q 0 = empty_offset) :
    (load_filters f).getD q defaultFilter = defaultFilter := by
  rw [load_filters, List.getD_eq_getElem?_getD, List.getElem?_map]
  cases hq : f.index[q]? with
  | none => rfl
  | some off =>
    have hoff : f.index.getD q 0 = off := by
      rw [List.getD_eq_getElem?_getD, hq]
      rfl
    rw [hoff] at h
    subst h
    simp [Option.map_some']

/-- `add` on a sink whose backing file is freshly created for parameters
the header checks reject: `ensure_header` re-validates the existing
header and throws before any state change. -/
theorem add_mismatch_of_file {s : Sink}
    (hfile : s.file = some (freshFile s.shardBits s.width))
    (hsh : s.shards ≠ max_shards s.shardBits)
    (ht : check_type_id s.width (mkHeader s.shardBits s.width) = true)
    (hm : check_max_shards s.shardBits (mkHeader s.shardBits s.width) = false)
    (nf : Filter) (pfx : Nat) :
    add s nf pfx = .error (.formatMismatch, s) := by
  have hEHf : ensure_header_file s.shardBits s.width
      (some (freshFile s.shardBits s.width)) = .error .formatMismatch := by
    have hns : ¬((freshFile s.shardBits s.width).size < base_length s.shardBits) := by
      show ¬(base_length s.shardBits < base_length s.shardBits)
      omega
    have ht' : check_type_id s.width (freshFile s.shardBits s.width).header = true := ht
    have hm' : check_max_shards s.shardBits (freshFile s.shardBits s.width).header
        = false := hm
    unfold ensure_header_file
    simp [hns, ht', hm']
  have hEH : ensure_header s = .error (.formatMismatch, s) := by
    unfold ensure_header
    rw [hfile, hEHf]
  unfold add
  rw [if_neg hsh, hEH]

/-- A fresh sink has no shards. -/
theorem freshSink_shards (b w : Nat) : (freshSink b w).shards = 0 :=
  countNonEmpty_replicate _

/-- The shard count is untouched by `stream_prepare` and by updates of
the stream bookkeeping fields. -/
theorem streamPrep_fresh_shards (b w : Nat) (ks : List Nat) (lk : Nat) :
    ({ stream_prepare (freshSink b w) with
        streamKeys := ks, streamLastKey := lk } : Sink).shards = 0 :=
  countNonEmpty_replicate _

/-- The example store `occFile` is well-formed. -/
theorem occFile_wf : FileWF 1 8 occFile := by
  refine ⟨rfl, rfl, ?_, by decide, by decide, rfl, rfl⟩
  intro q hq hne
  have hq2 : q < 2 := hq
  interval_cases q
  · decide
  · exact absurd (by decide) hne

/-- The filter holding the block of `k` answers `true` on `k` for every
oracle: `k` is among its construction keys, so the filter is populated
and its membership test succeeds. -/
theorem ofKeys_mem_block {b : Nat} {sz : List Nat → Nat} {ks : List Nat} {k : Nat}
    (hk : k ∈ ks) (fp : List Nat → Nat → Bool) :
    (if (Filter.ofKeys sz (blockOf b (extractPfx b k) ks)).populated = true then
      (Filter.ofKeys sz (blockOf b (extractPfx b k) ks)).mem fp k else false) = true := by
  have hkblk : k ∈ blockOf b (extractPfx b k) ks := by
    rw [blockOf, List.mem_filter]
    exact ⟨hk, by simp⟩
  have hpop : (Filter.ofKeys sz (blockOf b (extractPfx b k) ks)).populated = true := by
    cases hblk : blockOf b (extractPfx b k) ks with
    | nil =>
      rw [hblk] at hkblk
      exact absurd hkblk (List.not_mem_nil k)
    | cons a t => rfl
  rw [if_pos hpop, Filter.mem]
  have hkeq : (Filter.ofKeys sz (blockOf b (extractPfx b k) ks)).keys
      = blockOf b (extractPfx b k) ks := rfl
  rw [hkeq, Bool.or_eq_true]
  exact Or.inl (List.elem_iff.mpr hkblk)

/-- C1: round-trip has no false negatives — for shard_bits in [1,13]
(not the claimed [1,16]), by BOTH build routes of the claim: streaming
a sorted key list into a fresh sink, or calling `add` once per distinct
shard selector with the per-selector filter (`shardsOf`).  Either way
the build succeeds, the resulting file reopens as a source, and
`contains(k) = true` for every built key `k`, for every false-positive
oracle of the filter primitive.  For shard_bits in [14,16] the build
itself fails: see the counterexample. -/
theorem c1_round_trip {b w : Nat} {sz : List Nat → Nat} (hb1 : 1 ≤ b) (hb : b ≤ 13)
    (hw : w = 8 ∨ w = 16) (hsz : SzOk sz) (ks : List Nat)
    (hkeys : ∀ k ∈ ks, k < 2 ^ 64) (hsort : ks.Chain' (· ≤ ·)) :
    (∃ s' f', streamRun b w sz ks = .ok s' ∧ s'.file = some f' ∧
      sourceOpen b w (some f') =
        .ok ⟨b, f'.index, load_filters f', countNonEmpty f'.index⟩ ∧
      ∀ fp, ∀ k ∈ ks, containsVia fp b (load_filters f') k = true) ∧
    (∃ s2 f2, buildAdds (freshSink b w) (shardsOf b sz ks) = .ok s2 ∧
      s2.file = some f2 ∧
      sourceOpen b w (some f2) =
        .ok ⟨b, f2.index, load_filters f2, countNonEmpty f2.index⟩ ∧
      ∀ fp, ∀ k ∈ ks, containsVia fp b (load_filters f2) k = true) := by
  constructor
  · obtain ⟨s', f', hrun, hs', hassign⟩ := streamRun_spec hb1 hb hw hsz ks hkeys hsort
    refine ⟨s', f', hrun, hs'.2.2.1, sourceOpen_ok hs'.2.2.2.1.1 hb hw, ?_⟩
    intro fp k hk
    have hmem : extractPfx b k ∈ pfxList b ks := List.mem_map_of_mem _ hk
    rw [containsVia_slot hs'.2.2.2.1 fp k, hassign (extractPfx b k), assignFinal,
      if_pos hmem]
    exact ofKeys_mem_block hk fp
  · have hmem_lt : ∀ q ∈ (pfxList b ks).dedup, q < max_shards b := by
      intro q hq
      rw [List.mem_dedup, pfxList] at hq
      obtain ⟨k0, hk0, rfl⟩ := List.mem_map.mp hq
      exact extractPfx_lt b k0 (by omega) (hkeys k0 hk0)
    have hsnd : (shardsOf b sz ks).map Prod.snd = (pfxList b ks).dedup := by
      have hcomp : (Prod.snd ∘ fun q => (Filter.ofKeys sz (blockOf b q ks), q))
          = id := rfl
      rw [shardsOf, List.map_map, hcomp, List.map_id]
    have hnd : ((shardsOf b sz ks).map Prod.snd).Nodup := by
      rw [hsnd]
      exact List.nodup_dedup _
    have hbnd : ∀ e ∈ shardsOf b sz ks,
        e.2 < max_shards b ∧ 0 < e.1.sbytes ∧ e.1.sbytes ≤ 2 ^ 32 := by
      intro e he
      rw [shardsOf] at he
      obtain ⟨q, hq, rfl⟩ := List.mem_map.mp he
      exact ⟨hmem_lt q hq, (hsz (blockOf b q ks)).1, (hsz (blockOf b q ks)).2⟩
    have hempl : ∀ e ∈ shardsOf b sz ks,
        (freshFile b w).index.getD e.2 0 = empty_offset := by
      intro e he
      have hlt := (hbnd e he).1
      show (List.replicate (max_shards b) empty_offset).getD e.2 0 = empty_offset
      rw [getD_replicate, if_pos hlt]
    have hlen : (shardsOf b sz ks).length ≤ max_shards b := by
      have hsub : ((pfxList b ks).dedup).toFinset ⊆ Finset.range (max_shards b) := by
        intro x hx
        rw [List.mem_toFinset] at hx
        rw [Finset.mem_range]
        exact hmem_lt x hx
      have h2 := Finset.card_le_card hsub
      rw [Finset.card_range, List.toFinset_card_of_nodup (List.nodup_dedup _)] at h2
      rw [shardsOf, List.length_map]
      exact h2
    have hcap : (freshSink b w).shards + (shardsOf b sz ks).length ≤ max_shards b := by
      rw [freshSink_shards]
      omega
    obtain ⟨s2, f2, hrun2, hs2, hsh2, hslot2, -, -, -⟩ :=
      buildAdds_spec hb hw (shardsOf b sz ks) (freshSink b w) (freshFile b w)
        (freshSink_wf b w) hnd hbnd hempl hcap
    refine ⟨s2, f2, hrun2, hs2.2.2.1, sourceOpen_ok hs2.2.2.2.1.1 hb hw, ?_⟩
    intro fp k hk
    have hqmem : extractPfx b k ∈ (pfxList b ks).dedup :=
      List.mem_dedup.mpr (List.mem_map_of_mem _ hk)
    have hpair : (Filter.ofKeys sz (blockOf b (extractPfx b k) ks), extractPfx b k)
        ∈ shardsOf b sz ks := List.mem_map_of_mem _ hqmem
    rw [containsVia_slot hs2.2.2.2.1 fp k, hslot2 (extractPfx b k),
      assignList_mem hnd hpair]
    exact ofKeys_mem_block hk fp

/-- Witness for C1 at shard_bits 1 on the keys [0, 2^63], by both build
routes. -/
theorem c1_round_trip_witness :
    (∃ s' f', streamRun 1 8 (fun _ => 1) [0, 2 ^ 63] = .ok s' ∧ s'.file = some f' ∧
      sourceOpen 1 8 (some f') =
        .ok ⟨1, f'.index, load_filters f', countNonEmpty f'.index⟩ ∧
      ∀ fp, ∀ k ∈ [0, 2 ^ 63], containsVia fp 1 (load_filters f') k = true) ∧
    (∃ s2 f2, buildAdds (freshSink 1 8) (shardsOf 1 (fun _ => 1) [0, 2 ^ 63]) = .ok s2 ∧
      s2.file = some f2 ∧
      sourceOpen 1 8 (some f2) =
        .ok ⟨1, f2.index, load_filters f2, countNonEmpty f2.index⟩ ∧
      ∀ fp, ∀ k ∈ [0, 2 ^ 63], containsVia fp 1 (load_filters f2) k = true) :=
  c1_round_trip (by decide) (by decide) (Or.inl rfl)
    (fun _ => ⟨Nat.one_pos, by norm_num⟩) [0, 2 ^ 63] (by decide)
    (List.chain'_pair.mpr (Nat.zero_le _))

/-- Counterexample to C1 as stated: at shard_bits 14 (inside the claimed
[1,16]) even the single-key build fails, because `create_filetag` wrote a
five-digit shard-count field (16384) whose re-parse by
`check_max_shards` reads only the four bytes at offsets 11..14 (1638). -/
theorem c1_round_trip_cex :
    streamRun 14 8 (fun _ => 1) [0] =
      .error (.formatMismatch,
        { stream_prepare (freshSink 14 8) with streamKeys := [0], streamLastKey := 0 }) := by
  have h1 : streamFold (fun _ => 1) (stream_prepare (freshSink 14 8)) [0] =
      .ok { stream_prepare (freshSink 14 8) with streamKeys := [0], streamLastKey := 0 } :=
    rfl
  rw [streamRun, h1]
  show stream_finalize (fun _ => 1)
      { stream_prepare (freshSink 14 8) with streamKeys := [0], streamLastKey := 0 } =
    .error (.formatMismatch,
      { stream_prepare (freshSink 14 8) with streamKeys := [0], streamLastKey := 0 })
  rw [stream_finalize, if_neg (by decide)]
  refine add_mismatch_of_file rfl ?_ (by decide) (by decide) _ _
  rw [streamPrep_fresh_shards 14 8 [0] 0]
  decide

/-- C2: after a streaming build over sorted keys `ks`, a shard selector
`q` to which no key was routed keeps `index[q] = EMPTY` — except in the
one case the claim singles out: when the first streamed key has a
non-zero selector, the rollover in `stream_add` adds an empty filter at
slot 0, so slot 0 does NOT stay EMPTY (see the counterexample).  A query
routed to an unemitted selector still returns `false` for every oracle,
because the slot is either EMPTY or holds the unpopulated empty-set
filter. -/
theorem c2_unemitted_empty {b w : Nat} {sz : List Nat → Nat} (hb1 : 1 ≤ b) (hb : b ≤ 13)
    (hw : w = 8 ∨ w = 16) (hsz : SzOk sz) (ks : List Nat)
    (hkeys : ∀ k ∈ ks, k < 2 ^ 64) (hsort : ks.Chain' (· ≤ ·)) (q : Nat)
    (hqlt : q < max_shards b) (hq : q ∉ pfxList b ks) :
    ∃ s' f', streamRun b w sz ks = .ok s' ∧ s'.file = some f' ∧
      (¬(q = 0 ∧ ks ≠ [] ∧ 0 ∉ pfxList b ks) → f'.index.getD q 0 = empty_offset) ∧
      (∀ fp k, extractPfx b k = q → containsVia fp b (load_filters f') k = false) := by
  obtain ⟨s', f', hrun, hs', hassign⟩ := streamRun_spec hb1 hb hw hsz ks hkeys hsort
  have hwf : FileWF b w f' := hs'.2.2.2.1
  refine ⟨s', f', hrun, hs'.2.2.1, ?_, ?_⟩
  · intro hcond
    have hnone : slotFun f' q = none := by
      rw [hassign q, assignFinal, if_neg hq, if_neg hcond]
    exact (slotFun_none_iff hwf hqlt).mp hnone
  · intro fp k hpk
    rw [containsVia_slot hwf fp k, hpk, hassign q, assignFinal, if_neg hq]
    by_cases hc : q = 0 ∧ ks ≠ [] ∧ 0 ∉ pfxList b ks
    · rw [if_pos hc]
      rfl
    · rw [if_neg hc]

/-- Witness for C2: streaming [0] at shard_bits 1 leaves slot 1 EMPTY
and querying any key routed to slot 1 returns false. -/
theorem c2_unemitted_empty_witness :
    ∃ s' f', streamRun 1 8 (fun _ => 1) [0] = .ok s' ∧ s'.file = some f' ∧
      (¬((1 : Nat) = 0 ∧ [(0 : Nat)] ≠ [] ∧ (0 : Nat) ∉ pfxList 1 [0]) →
        f'.index.getD 1 0 = empty_offset) ∧
      (∀ fp k, extractPfx 1 k = 1 → containsVia fp 1 (load_filters f') k = false) :=
  c2_unemitted_empty (by decide) (by decide) (Or.inl rfl)
    (fun _ => ⟨Nat.one_pos, by norm_num⟩) [0] (by decide) (List.chain'_singleton _) 1
    (by decide) (by decide)

/-- Counterexample to C2 as stated: streaming the single key 2^63 at
shard_bits 1 — a key routed to slot 1, with nothing ever routed to slot
0 — still ends with `index[0]` non-EMPTY, because the first `stream_add`
rolls over from the initial `stream_last_prefix = 0` and adds an
empty-set filter at slot 0. -/
theorem c2_unemitted_empty_cex :
    ((streamRun 1 8 (fun _ => 1) [2 ^ 63]).toOption.bind Sink.file).map
        (fun f => f.index.getD 0 0 == empty_offset) = some false ∧
      (0 : Nat) ∉ pfxList 1 [2 ^ 63] := by
  exact ⟨by rfl, by decide⟩

/-- C3: monotonic streaming admission — `stream_add(k)` fails with
KeyOutOfOrder exactly when `k` is strictly below `stream_last_key` (so
equal keys and any first key after `stream_prepare` are never rejected
for ordering); a KeyOutOfOrder failure happens before any mutation, so
the sink (buffer, last key, file) is returned unchanged; and a key with
the current selector is always accepted, appending it to the buffer. -/
theorem c3_stream_monotonic (sz : List Nat → Nat) (s : Sink) (k : Nat) :
    ((∃ s', stream_add sz s k = .error (.keyOutOfOrder, s')) ↔ k < s.streamLastKey) ∧
    (∀ e s', stream_add sz s k = .error (e, s') → e = .keyOutOfOrder → s' = s) ∧
    (¬k < s.streamLastKey → extractPfx s.shardBits k = s.streamLastPfx →
      stream_add sz s k =
        .ok { s with streamLastKey := k, streamKeys := s.streamKeys ++ [k] }) := by
  refine ⟨⟨?_, ?_⟩, ?_, ?_⟩
  · rintro ⟨s', hs'⟩
    by_contra hk
    exact absurd rfl (stream_add_no_koo hk hs')
  · intro hk
    exact ⟨s, by rw [stream_add, if_pos hk]⟩
  · intro e s' herr hekoo
    subst hekoo
    by_cases hk : k < s.streamLastKey
    · rw [stream_add, if_pos hk] at herr
      simp only [Except.error.injEq, Prod.mk.injEq] at herr
      exact herr.2.symm
    · exact absurd rfl (stream_add_no_koo hk herr)
  · intro hk hpfx
    rw [stream_add, if_neg hk, if_neg (fun h => h hpfx)]

/-- Witness for C3: a sink whose last accepted key is 5 rejects 3 with
KeyOutOfOrder. -/
theorem c3_stream_monotonic_witness :
    ∃ s', stream_add (fun _ => 1) { freshSink 1 8 with streamLastKey := 5 } 3 =
      .error (.keyOutOfOrder, s') :=
  (c3_stream_monotonic (fun _ => 1) { freshSink 1 8 with streamLastKey := 5 } 3).1.mpr
    (by decide)

/-- C4: empty-slot short-circuit — on a source handle opened from a file
whose index entry for the selector of `k` is EMPTY, `contains(k)`
returns `false` for every false-positive oracle (so no filter region is
consulted). -/
theorem c4_empty_slot {b w : Nat} {f : SFile} {src : Source} {k : Nat}
    (hopen : sourceOpen b w (some f) = .ok src)
    (hemp : f.index.getD (extractPfx b k) 0 = empty_offset) :
    ∀ fp, Source.contains fp src k = false := by
  intro fp
  simp only [sourceOpen] at hopen
  by_cases h1 : check_type_id w f.header = true
  · by_cases h2 : check_max_shards b f.header = true
    · rw [if_pos h1, if_pos h2] at hopen
      simp only [Except.ok.injEq] at hopen
      subst hopen
      simp only [Source.contains, containsVia]
      rw [load_filters_getD_of_empty hemp]
      rfl
    · rw [if_pos h1, if_neg h2] at hopen
      exact absurd hopen (by simp)
  · rw [if_neg h1] at hopen
    exact absurd hopen (by simp)

/-- Witness for C4 on the fresh (all-EMPTY) store at shard_bits 1, with
the everywhere-true false-positive oracle. -/
theorem c4_empty_slot_witness :
    Source.contains (fun _ _ => true)
      ⟨1, (freshFile 1 8).index, load_filters (freshFile 1 8),
        countNonEmpty (freshFile 1 8).index⟩ 0 = false :=
  @c4_empty_slot 1 8 (freshFile 1 8)
    ⟨1, (freshFile 1 8).index, load_filters (freshFile 1 8),
      countNonEmpty (freshFile 1 8).index⟩ 0 rfl (by decide) (fun _ _ => true)

/-- C5: index-write ordering inside `add` — corrected.  Whenever the
side-effect trace of one `add` call contains the mapped index-slot
write, that write comes strictly BEFORE the body serialization (it is
the event immediately preceding it), not after it as the claim states:
the source performs `copy_to_map` of the new offset and only then
`new_filter.serialize`. -/
theorem c5_index_write_order (s : Sink) (nf : Filter) (pfx : Nat) (tr : List AddEvent)
    (htr : addTrace s nf pfx = tr) (i o : Nat)
    (hmem : AddEvent.writeIndexSlot i o ∈ tr) :
    idxWritePos tr < serializePos tr ∧
      ∃ off, tr = [.headerPhase, .syncStart, .resizeFile (wordFit (off + nf.sbytes)),
        .writeIndexSlot pfx off, .serializeBody off, .memIndexSet pfx off, .syncEnd] := by
  simp only [addTrace] at htr
  split at htr
  · rw [← htr] at hmem
    simp at hmem
  · split at htr
    · rw [← htr] at hmem
      simp at hmem
    · split at htr
      · rw [← htr] at hmem
        simp at hmem
      · rw [← htr]
        constructor
        · show (3 : Nat) < 4
          decide
        · exact ⟨_, rfl⟩

/-- Witness for C5: the concrete trace of adding a 4-byte filter at slot
0 of a fresh two-shard sink. -/
theorem c5_index_write_order_witness :
    idxWritePos [AddEvent.headerPhase, .syncStart, .resizeFile 36, .writeIndexSlot 0 32,
        .serializeBody 32, .memIndexSet 0 32, .syncEnd] <
      serializePos [AddEvent.headerPhase, .syncStart, .resizeFile 36, .writeIndexSlot 0 32,
        .serializeBody 32, .memIndexSet 0 32, .syncEnd] ∧
      ∃ off, [AddEvent.headerPhase, .syncStart, .resizeFile 36, .writeIndexSlot 0 32,
          .serializeBody 32, .memIndexSet 0 32, .syncEnd] =
        [AddEvent.headerPhase, .syncStart,
          .resizeFile (wordFit (off + (⟨[0], true, 4⟩ : Filter).sbytes)),
          .writeIndexSlot 0 off, .serializeBody off, .memIndexSet 0 off, .syncEnd] :=
  c5_index_write_order (freshSink 1 8) ⟨[0], true, 4⟩ 0
    [.headerPhase, .syncStart, .resizeFile 36, .writeIndexSlot 0 32,
      .serializeBody 32, .memIndexSet 0 32, .syncEnd] (by decide) 0 32 (by decide)

/-- Counterexample to C5 as stated: in the trace of a successful `add`
the index-slot write sits at position 3 and the serialization at
position 4, so the write is NOT after the serialization. -/
theorem c5_index_write_order_cex :
    idxWritePos (addTrace (freshSink 1 8) ⟨[0], true, 4⟩ 0) <
      serializePos (addTrace (freshSink 1 8) ⟨[0], true, 4⟩ 0) ∧
    ¬serializePos (addTrace (freshSink 1 8) ⟨[0], true, 4⟩ 0) <
      idxWritePos (addTrace (freshSink 1 8) ⟨[0], true, 4⟩ 0) := by
  decide

/-- C6: header format — for shard_bits in [1,13] (not the claimed
[1,16]) the 16 header bytes written on creation are exactly the ASCII
tag `sbinfuse`, the width as two zero-padded decimal digits, a `-`, the
shard count as exactly four zero-padded decimal digits, and a
terminating NUL.  For shard_bits in [14,16] the count needs five digits
and the layout breaks: see the counterexample. -/
theorem c6_header_format (b w : Nat) (hb1 : 1 ≤ b) (hb : b ≤ 13) (hw : w = 8 ∨ w = 16) :
    mkHeader b w = specHeader b w ∧ (mkHeader b w).length = 16 ∧
      (padDec 4 (max_shards b)).length = 4 ∧ (padDec 2 w).length = 2 := by
  rcases hw with hw | hw <;> subst hw <;> interval_cases b <;> decide

/-- Witness for C6 at shard_bits 8, width 8. -/
theorem c6_header_format_witness :
    mkHeader 8 8 = specHeader 8 8 ∧ (mkHeader 8 8).length = 16 ∧
      (padDec 4 (max_shards 8)).length = 4 ∧ (padDec 2 8).length = 2 :=
  c6_header_format 8 8 (by decide) (by decide) (Or.inl rfl)

/-- Counterexample to C6 as stated: at shard_bits 14 (inside the claimed
[1,16]) the shard-count field takes five digits, so byte 15 is the digit
`4` (ASCII 52) rather than the claimed NUL terminator, and the header
does not match the claimed layout. -/
theorem c6_header_format_cex :
    (mkHeader 14 8).getD 15 0 = 52 ∧ mkHeader 14 8 ≠ specHeader 14 8 ∧
      (padDec 4 (max_shards 14)).length = 5 := by
  decide

/-- C7: format fidelity on open — for a file created with parameters
`(b0, w0)`, `b0 ≤ 13`: opening as a source with requested parameters
`(b, w)` succeeds exactly when both match, and any mismatch of the
width field or of the shard-count field yields FileFormatMismatch.  The
claim fails for creation parameters with shard_bits in [14,16], where
even a matching reopen is rejected: see the counterexample. -/
theorem c7_format_fidelity {b w b0 w0 : Nat} {f : SFile} (hhdr : f.header = mkHeader b0 w0)
    (hb0 : b0 ≤ 13) (hw : w = 8 ∨ w = 16) (hw0 : w0 = 8 ∨ w0 = 16) :
    (b = b0 ∧ w = w0 →
      sourceOpen b w (some f) =
        .ok ⟨b, f.index, load_filters f, countNonEmpty f.index⟩) ∧
    (¬(b = b0 ∧ w = w0) → sourceOpen b w (some f) = .error .formatMismatch) := by
  constructor
  · rintro ⟨hb', hw'⟩
    subst hb'
    subst hw'
    exact sourceOpen_ok hhdr hb0 hw0
  · intro hne
    simp only [sourceOpen]
    by_cases hww : w = w0
    · subst hww
      have hbb : b ≠ b0 := fun h => hne ⟨h, rfl⟩
      have ht : check_type_id w f.header = true := by
        rw [hhdr]
        exact (check_type_id_mkHeader_iff w b0 w (by omega) hw hw).mpr rfl
      have hm : ¬check_max_shards b f.header = true := by
        rw [hhdr, check_max_shards_mkHeader_iff b b0 w hb0 hw]
        exact hbb
      rw [if_pos ht, if_neg hm]
    · have ht : ¬check_type_id w f.header = true := by
        rw [hhdr, check_type_id_mkHeader_iff w b0 w0 (by omega) hw hw0]
        exact hww
      rw [if_neg ht]

/-- Witness for C7: a store created at shard_bits 1 and width 8 reopens
with matching parameters and is rejected under any mismatch. -/
theorem c7_format_fidelity_witness :
    ((1 : Nat) = 1 ∧ (8 : Nat) = 8 →
      sourceOpen 1 8 (some (freshFile 1 8)) =
        .ok ⟨1, (freshFile 1 8).index, load_filters (freshFile 1 8),
          countNonEmpty (freshFile 1 8).index⟩) ∧
    (¬((1 : Nat) = 1 ∧ (8 : Nat) = 8) →
      sourceOpen 1 8 (some (freshFile 1 8)) = .error .formatMismatch) :=
  @c7_format_fidelity 1 8 1 8 (freshFile 1 8) rfl (by decide) (Or.inl rfl) (Or.inl rfl)

/-- Counterexample to C7 as stated: a store created at shard_bits 14
fails to reopen even with the SAME requested width and shard_bits,
because `check_max_shards` re-parses only four digits (1638) of the
five-digit count field (16384). -/
theorem c7_format_fidelity_cex :
    sourceOpen 14 8 (some (freshFile 14 8)) = .error .formatMismatch := rfl

/-- C8: SlotOccupied — corrected.  On a well-formed sink whose index
entry for `pfx` is already non-EMPTY, `add` fails with SlotOccupied
leaving the in-memory index, shard count, filter table and hence every
`contains` answer unchanged — but only while the store is below
capacity.  At capacity the earlier capacity guard fires instead, so the
claimed SlotOccupied is replaced by CapacityExceeded even though the
slot is occupied: see the counterexample. -/
theorem c8_slot_occupied {b w : Nat} {s : Sink} {f : SFile} (hs : SinkWF b w s f)
    (hb : b ≤ 13) (hw : w = 8 ∨ w = 16) (nf : Filter) (pfx : Nat)
    (hocc : f.index.getD pfx 0 ≠ empty_offset) :
    (s.shards ≠ max_shards b →
      ∃ s', add s nf pfx = .error (.slotOccupied, s') ∧ s'.index = s.index ∧
        s'.shards = s.shards ∧ s'.filters = s.filters ∧
        ∀ fp k, Sink.contains fp s' k = Sink.contains fp s k) ∧
    (s.shards = max_shards b → add s nf pfx = .error (.capacityExceeded, s)) := by
  constructor
  · intro hcap
    exact ⟨{ s with file := some { f with size := wordFit (f.size + nf.sbytes) } },
      add_occupied_spec hs hb hw hocc hcap, rfl, rfl, rfl, fun fp k => rfl⟩
  · intro hcap
    have hg : s.shards = max_shards s.shardBits := by
      rw [hs.1]
      exact hcap
    unfold add
    rw [if_pos hg]

/-- Witness for C8 on the example store with slot 0 occupied. -/
theorem c8_slot_occupied_witness :
    ((sinkFromFile 1 8 occFile).shards ≠ max_shards 1 →
      ∃ s', add (sinkFromFile 1 8 occFile) ⟨[7], true, 4⟩ 0 =
          .error (.slotOccupied, s') ∧
        s'.index = (sinkFromFile 1 8 occFile).index ∧
        s'.shards = (sinkFromFile 1 8 occFile).shards ∧
        s'.filters = (sinkFromFile 1 8 occFile).filters ∧
        ∀ fp k, Sink.contains fp s' k = Sink.contains fp (sinkFromFile 1 8 occFile) k) ∧
    ((sinkFromFile 1 8 occFile).shards = max_shards 1 →
      add (sinkFromFile 1 8 occFile) ⟨[7], true, 4⟩ 0 =
        .error (.capacityExceeded, sinkFromFile 1 8 occFile)) :=
  @c8_slot_occupied 1 8 (sinkFromFile 1 8 occFile) occFile
    ⟨rfl, rfl, rfl, occFile_wf, rfl, rfl, rfl⟩ (by decide) (Or.inl rfl)
    ⟨[7], true, 4⟩ 0 (by decide)

/-- Counterexample to C8 as stated: on the full example store slot 0 is
occupied, yet `add` at slot 0 reports CapacityExceeded, not the claimed
SlotOccupied, because the capacity check precedes the slot check. -/
theorem c8_slot_occupied_cex :
    occFullFile.index.getD 0 0 ≠ empty_offset ∧
      add (sinkFromFile 1 8 occFullFile) ⟨[7], true, 4⟩ 0 =
        .error (.capacityExceeded, sinkFromFile 1 8 occFullFile) :=
  ⟨by decide, rfl⟩

/-- C9: insertion-order independence — for shard_bits in [1,13] (not
the claimed unrestricted setting): presenting the same per-slot shards
to a fresh sink in any two orders, both builds succeed and the built
files answer every `contains` query identically, for every
false-positive oracle. -/
theorem c9_order_independence {b w : Nat} (hb1 : 1 ≤ b) (hb : b ≤ 13)
    (hw : w = 8 ∨ w = 16) (l l' : List (Filter × Nat)) (hperm : l.Perm l')
    (hnd : (l.map Prod.snd).Nodup)
    (hbnd : ∀ e ∈ l, e.2 < max_shards b ∧ 0 < e.1.sbytes ∧ e.1.sbytes ≤ 2 ^ 32) :
    ∃ s1 f1 s2 f2, buildAdds (freshSink b w) l = .ok s1 ∧ s1.file = some f1 ∧
      buildAdds (freshSink b w) l' = .ok s2 ∧ s2.file = some f2 ∧
      ∀ fp k, containsVia fp b (load_filters f1) k
        = containsVia fp b (load_filters f2) k := by
  have h0 : (freshSink b w).shards = 0 := freshSink_shards b w
  have hempl : ∀ e ∈ l, (freshFile b w).index.getD e.2 0 = empty_offset := by
    intro e he
    have hlt := (hbnd e he).1
    show (List.replicate (max_shards b) empty_offset).getD e.2 0 = empty_offset
    rw [getD_replicate, if_pos hlt]
  have hlen : l.length ≤ max_shards b := by
    have hsub : (l.map Prod.snd).toFinset ⊆ Finset.range (max_shards b) := by
      intro x hx
      rw [List.mem_toFinset] at hx
      rw [Finset.mem_range]
      obtain ⟨e, he, hex⟩ := List.mem_map.mp hx
      rw [← hex]
      exact (hbnd e he).1
    have h2 := Finset.card_le_card hsub
    rw [Finset.card_range, List.toFinset_card_of_nodup hnd, List.length_map] at h2
    exact h2
  have hcapl : (freshSink b w).shards + l.length ≤ max_shards b := by
    rw [h0]
    omega
  obtain ⟨s1, f1, hrun1, hs1, hsh1, hslot1, -, -, -⟩ :=
    buildAdds_spec hb hw l (freshSink b w) (freshFile b w) (freshSink_wf b w) hnd hbnd
      hempl hcapl
  have hnd' : (l'.map Prod.snd).Nodup := ((hperm.map Prod.snd).nodup_iff).mp hnd
  have hbnd' : ∀ e ∈ l', e.2 < max_shards b ∧ 0 < e.1.sbytes ∧ e.1.sbytes ≤ 2 ^ 32 :=
    fun e he => hbnd e (hperm.mem_iff.mpr he)
  have hempl' : ∀ e ∈ l', (freshFile b w).index.getD e.2 0 = empty_offset :=
    fun e he => hempl e (hperm.mem_iff.mpr he)
  have hcapl' : (freshSink b w).shards + l'.length ≤ max_shards b := by
    rw [h0, ← hperm.length_eq]
    omega
  obtain ⟨s2, f2, hrun2, hs2, hsh2, hslot2, -, -, -⟩ :=
    buildAdds_spec hb hw l' (freshSink b w) (freshFile b w) (freshSink_wf b w) hnd' hbnd'
      hempl' hcapl'
  refine ⟨s1, f1, s2, f2, hrun1, hs1.2.2.1, hrun2, hs2.2.2.1, ?_⟩
  intro fp k
  rw [containsVia_slot hs1.2.2.2.1 fp k, containsVia_slot hs2.2.2.2.1 fp k,
    hslot1 (extractPfx b k), hslot2 (extractPfx b k), assignList_perm hperm hnd]

/-- Witness for C9: the two shards for slots 0 and 1 added in both
orders at shard_bits 1. -/
theorem c9_order_independence_witness :
    ∃ s1 f1 s2 f2,
      buildAdds (freshSink 1 8) [(⟨[0], true, 4⟩, 0), (⟨[2 ^ 63], true, 4⟩, 1)]
        = .ok s1 ∧
      s1.file = some f1 ∧
      buildAdds (freshSink 1 8) [(⟨[2 ^ 63], true, 4⟩, 1), (⟨[0], true, 4⟩, 0)]
        = .ok s2 ∧
      s2.file = some f2 ∧
      ∀ fp k, containsVia fp 1 (load_filters f1) k
        = containsVia fp 1 (load_filters f2) k :=
  c9_order_independence (by decide) (by decide) (Or.inl rfl) _ _
    (List.Perm.swap _ _ _) (by decide) (by decide)

/-- Counterexample to C9 as stated: without the shard_bits restriction
the claim fails — at shard_bits 14 a build of a single shard does not
succeed at all (in any presentation order), failing with
FileFormatMismatch on the first `add`. -/
theorem c9_order_independence_cex :
    buildAdds (freshSink 14 8) [(⟨[0], true, 4⟩, 0)] =
      .error (.formatMismatch, freshSink 14 8) := by
  have hadd : add (freshSink 14 8) ⟨[0], true, 4⟩ 0 =
      .error (.formatMismatch, freshSink 14 8) := by
    refine add_mismatch_of_file rfl ?_ (by decide) (by decide) _ _
    rw [freshSink_shards 14 8]
    decide
  rw [buildAdds_cons]
  dsimp only
  rw [hadd]

/-- C10: routing-bound safety — for every shard_bits in [1,16] and every
64-bit key, the routing selector is strictly below `max_shards`, and
after `load_filters` has produced one filter per index slot the filters
table access in `contains` is in bounds (so its out-of-range branch is
unreachable). -/
theorem c10_routing_bound (b k : Nat) (f : SFile) (hb1 : 1 ≤ b) (hb : b ≤ 16)
    (hk : k < 2 ^ 64) (hlen : f.index.length = max_shards b) :
    extractPfx b k < max_shards b ∧ extractPfx b k < (load_filters f).length := by
  have h1 : extractPfx b k < max_shards b := extractPfx_lt b k (by omega) hk
  refine ⟨h1, ?_⟩
  rw [load_filters_length, hlen]
  exact h1

/-- Witness for C10 at shard_bits 1 on the fresh two-slot store. -/
theorem c10_routing_bound_witness :
    extractPfx 1 3 < max_shards 1 ∧ extractPfx 1 3 < (load_filters (freshFile 1 8)).length :=
  c10_routing_bound 1 3 (freshFile 1 8) (by decide) (by decide) (by decide) (by decide)

end Binfuse
